import Mathlib

/-
  Verification of the two-phase transportation-problem solver:
  BFS construction (Vogel's / Russell's approximation over a shrinking
  bordered table) followed by MODI (dual-potential stepping-stone)
  refinement.  Costs, supplies, demands and flows are embedded as
  rationals; python dicts become insertion-ordered association lists.
-/

namespace TP

abbrev Cell := ℕ × ℕ

/-- Insertion-ordered association list standing for the python dict
`MODI.alloc` mapping basic cells to flow amounts. -/
abbrev Alloc := List (Cell × ℚ)

def keys (a : Alloc) : List Cell := a.map (·.1)

def lookupD (a : Alloc) (k : Cell) (d : ℚ) : ℚ :=
  match a.find? (fun p => decide (p.1 = k)) with
  | some p => p.2
  | none => d

def hasKey (a : Alloc) (k : Cell) : Bool :=
  (a.find? (fun p => decide (p.1 = k))).isSome

/-- Python dict assignment: overwrite in place if the key is present,
append at the end otherwise. -/
def aset (a : Alloc) (k : Cell) (v : ℚ) : Alloc :=
  if hasKey a k then a.map (fun p => if p.1 = k then (k, v) else p)
  else a ++ [(k, v)]

/-- Python dict deletion (keys are unique in a dict, so removing every
entry with the key is the same as removing the one entry). -/
def adel (a : Alloc) (k : Cell) : Alloc := a.filter (fun p => decide (p.1 ≠ k))

/-- Row share (`c[0] == i`) when searching a row, column share otherwise. -/
def share (sr : Bool) (a b : Cell) : Bool :=
  if sr then decide (a.1 = b.1) else decide (a.2 = b.2)

/-- `MODI._find_loop`'s inner `get_path`: depth-first search for an
alternating closed loop through `start`.  `path` always ends in `curr`;
fuel replaces python's untracked recursion (it is chosen large enough in
`findLoop` that exhaustion is unreachable on duplicate-free paths). -/
def getPath : ℕ → List Cell → Cell → Cell → List Cell → Bool → Option (List Cell)
  | 0, _, _, _, _, _ => none
  | fuel + 1, basis, start, curr, path, sr =>
    if 3 < path.length ∧ curr = start then
      some path.dropLast
    else
      (basis.filter (fun c => share sr curr c && decide (c ≠ curr))).findSome?
        (fun c =>
          if c ∉ path ∨ (c = start ∧ 2 < path.length) then
            getPath fuel basis start c (path ++ [c]) (!sr)
          else none)

/-- `MODI._find_loop`: the basis searched is the current allocation's
keys followed by the entering cell. -/
def findLoop (a : Alloc) (start : Cell) : Option (List Cell) :=
  let basis := keys a ++ [start]
  getPath (basis.length + 3) basis start start [start] true

/-- Row-major enumeration of all cells, the scan order of
`MODI._ensure_non_degenerate` and of `MODI.solve`'s entering-cell scan. -/
def allCells (n m : ℕ) : List Cell :=
  (List.range n).flatMap (fun i => (List.range m).map (fun j => (i, j)))

/-- The double loop of `MODI._ensure_non_degenerate`: insert the first
zero-valued non-basic cells that close no loop, returning as soon as the
required size is reached. -/
def ensureScan : List Cell → ℕ → Alloc → Alloc
  | [], _, a => a
  | c :: rest, required, a =>
    if hasKey a c then ensureScan rest required a
    else if (findLoop a c).isSome then ensureScan rest required a
    else
      let a' := a ++ [(c, 0)]
      if a'.length = required then a' else ensureScan rest required a'

def ensureNonDegenerate (n m : ℕ) (a : Alloc) : Alloc :=
  if a.length = n + m - 1 then a
  else ensureScan (allCells n m) (n + m - 1) a

/-- `MODI.__init__` with integer-labelled bfs triples: load the triples
into the dict, then repair degeneracy. -/
def modiInit (n m : ℕ) (bfs : List (Cell × ℚ)) : Alloc :=
  ensureNonDegenerate n m (bfs.foldl (fun a p => aset a p.1 p.2) [])

def costAt (cost : List (List ℚ)) (i j : ℕ) : ℚ := (cost.getD i []).getD j 0

/-- One basic cell visited inside a `_compute_uv` pass. -/
def uvStep (cost : List (List ℚ)) (st : List (Option ℚ) × List (Option ℚ) × Bool)
    (c : Cell) : List (Option ℚ) × List (Option ℚ) × Bool :=
  let u := st.1
  let v := st.2.1
  match u.getD c.1 none, v.getD c.2 none with
  | some ui, none => (u, v.set c.2 (some (costAt cost c.1 c.2 - ui)), true)
  | none, some vj => (u.set c.1 (some (costAt cost c.1 c.2 - vj)), v, true)
  | _, _ => (u, v, st.2.2)

/-- The `while None in u or None in v` loop of `_compute_uv`: full passes
over the basic cells until complete or no pass makes progress. -/
def uvLoop (cost : List (List ℚ)) (ks : List Cell) :
    ℕ → List (Option ℚ) → List (Option ℚ) → List (Option ℚ) × List (Option ℚ)
  | 0, u, v => (u, v)
  | fuel + 1, u, v =>
    if u.any Option.isNone || v.any Option.isNone then
      let st := ks.foldl (uvStep cost) (u, v, false)
      if st.2.2 then uvLoop cost ks fuel st.1 st.2.1 else (st.1, st.2.1)
    else (u, v)

/-- `MODI._compute_uv` (fuel `n + m + 1` passes suffices: every pass that
continues the loop has derived at least one new potential). -/
def computeUV (cost : List (List ℚ)) (n m : ℕ) (a : Alloc) :
    List (Option ℚ) × List (Option ℚ) :=
  uvLoop cost (keys a) (n + m + 1)
    ((List.replicate n (none : Option ℚ)).set 0 (some 0))
    (List.replicate m none)

/-- One cell of `MODI.solve`'s entering-cell scan.  Python's
`u[i] + v[j] - cost[i,j]` raises `TypeError` when a needed potential is
still `None`; that crash is the `Except.error` branch. -/
def selStep (cost : List (List ℚ)) (a : Alloc)
    (u v : List (Option ℚ)) (st : Except Unit (ℚ × Option Cell)) (c : Cell) :
    Except Unit (ℚ × Option Cell) :=
  match st with
  | .error e => .error e
  | .ok (best, ent) =>
    if hasKey a c then .ok (best, ent)
    else
      match u.getD c.1 none, v.getD c.2 none with
      | some ui, some vj =>
        let p := ui + vj - costAt cost c.1 c.2
        if best < p then .ok (p, some c) else .ok (best, ent)
      | _, _ => .error ()

/-- The full entering-cell scan: row-major, starting from threshold 0 so
only strictly positive opportunity values are ever selected, keeping the
first cell attaining the running maximum. -/
def selectEntering (cost : List (List ℚ)) (n m : ℕ) (a : Alloc)
    (u v : List (Option ℚ)) : Except Unit (ℚ × Option Cell) :=
  (allCells n m).foldl (selStep cost a u v) (.ok (0, none))

/-- `loop[1::2]`: the minus cells of a stepping-stone loop. -/
def minusCells (L : List Cell) : List Cell :=
  (L.enum.filter (fun p => p.1 % 2 = 1)).map (·.2)

/-- `theta = min(alloc[c] for c in minus_cells)`. -/
def theta (a : Alloc) (L : List Cell) : ℚ :=
  match (minusCells L).map (fun c => lookupD a c 0) with
  | [] => 0
  | x :: xs => xs.foldl min x

/-- The update loop of `_reallocate`: add theta at even positions
(inserting the entering cell), subtract at odd positions. -/
def applyLoop (a : Alloc) (L : List Cell) (t : ℚ) : Alloc :=
  L.enum.foldl (fun a' p =>
    if p.1 % 2 = 0 then aset a' p.2 (lookupD a' p.2 0 + t)
    else aset a' p.2 (lookupD a' p.2 0 - t)) a

/-- The removal loop of `_reallocate`: delete only the first minus cell
whose updated flow is zero, even when several reach zero. -/
def dropFirstZero (a : Alloc) : List Cell → Alloc
  | [] => a
  | c :: rest => if lookupD a c 0 = 0 then adel a c else dropFirstZero a rest

def reallocate (a : Alloc) (L : List Cell) : Alloc :=
  let t := theta a L
  let a' := applyLoop a L t
  dropFirstZero a' (minusCells L)

/-- How a `MODI.solve` run left its loop; the python function returns the
same bare pair on every path, so the kind is recorded alongside it here
to let theorems talk about which exit was taken. -/
inductive ExitKind
  | optimal
  | loopFail
  | capExceeded
  | typeErr
  deriving DecidableEq, Repr

/-- The `for _ in range(100)` refinement loop of `MODI.solve`. -/
def modiLoop (cost : List (List ℚ)) (n m : ℕ) : ℕ → Alloc → Alloc × ExitKind
  | 0, a => (a, .capExceeded)
  | fuel + 1, a =>
    let uv := computeUV cost n m a
    match selectEntering cost n m a uv.1 uv.2 with
    | .error _ => (a, .typeErr)
    | .ok (_, none) => (a, .optimal)
    | .ok (_, some e) =>
      match findLoop a e with
      | none => (a, .loopFail)
      | some L => modiLoop cost n m fuel (reallocate a L)

def costValue (cost : List (List ℚ)) (a : Alloc) : ℚ :=
  (a.map (fun p => costAt cost p.1.1 p.1.2 * p.2)).sum

def modiRun (cost : List (List ℚ)) (bfs : List (Cell × ℚ)) : Alloc × ExitKind :=
  modiLoop cost cost.length (cost.getD 0 []).length 100 (modiInit cost.length (cost.getD 0 []).length bfs)

/-- What `MODI.solve` actually hands back: the allocation and its cost,
with no record of which exit was taken. -/
def modiSolve (cost : List (List ℚ)) (bfs : List (Cell × ℚ)) : Alloc × ℚ :=
  ((modiRun cost bfs).1, costValue cost (modiRun cost bfs).1)

/-- The bordered working table of the BFS constructors: the active cost
block `vals` together with the label/remaining-supply border rows.  The
python table is one numpy array; the leading label row/column and the
trailing supply/demand row/column are stored here as the `rows` and
`cols` lists, `vals` is the `table[1:-1, 1:-1]` block. -/
structure TTable where
  rows : List (String × ℚ)
  cols : List (String × ℚ)
  vals : List (List ℚ)
  deriving Repr, DecidableEq

/-- `allocate(x, y)` shared by `VogelsApproximationMethod` and
`RussellsApproximationMethod` (0-based active indices here; python's
`x`, `y` index the bordered array so it passes `x+1`, `y+1`). -/
def allocateStep (t : TTable) (x y : ℕ) : TTable × (String × String × ℚ) :=
  let r := t.rows.getD x ("", 0)
  let c := t.cols.getD y ("", 0)
  let mins := min r.2 c.2
  let entry := (r.1, c.1, mins)
  if r.2 < c.2 then
    ({ rows := t.rows.eraseIdx x,
       cols := t.cols.set y (c.1, c.2 - mins),
       vals := t.vals.eraseIdx x }, entry)
  else if c.2 < r.2 then
    ({ rows := t.rows.set x (r.1, r.2 - mins),
       cols := t.cols.eraseIdx y,
       vals := t.vals.map (fun row => row.eraseIdx y) }, entry)
  else
    ({ rows := t.rows.eraseIdx x,
       cols := t.cols.eraseIdx y,
       vals := (t.vals.eraseIdx x).map (fun row => row.eraseIdx y) }, entry)

def qle (a b : ℚ) : Bool := decide (a ≤ b)

/-- Numpy's `cost.T` (and `cost[:, c]`): the list of columns of a
rectangular block. -/
def colsOf (vals : List (List ℚ)) : List (List ℚ) :=
  (List.range (vals.getD 0 []).length).map (fun j => vals.map (fun row => row.getD j 0))

/-- `VogelsApproximationMethod.penalty` on one line: gap between the two
smallest costs, against a sentinel of 0 when only one cost remains
(python's `except ValueError` branch; the empty line is a crash there
and returns a junk 0 here). -/
def penalty (c : List ℚ) : ℚ :=
  match c.mergeSort qle with
  | x :: y :: _ => |x - y|
  | [x] => |x - 0|
  | [] => 0

def listMax (l : List ℚ) : ℚ :=
  match l with
  | [] => 0
  | x :: xs => xs.foldl max x

def listMin (l : List ℚ) : ℚ :=
  match l with
  | [] => 0
  | x :: xs => xs.foldl min x

/-- The selection scan of `VogelsApproximationMethod.solve`: over every
row/column tied at the maximum penalty, over every cell tied at that
line's minimum cost, keep the first cell seen with the strictly largest
feasible amount `min(supply, demand)` (`max_alloc` starts at `-inf`,
modelled by `Option`). -/
def vamSelect (t : TTable) : ℕ × ℕ :=
  let n := t.vals.length
  let rowPen := t.vals.map penalty
  let colPen := (colsOf t.vals).map penalty
  let P := rowPen ++ colPen
  let maxP := listMax P
  let tied := (List.range P.length).filter (fun i => decide (P.getD i 0 = maxP))
  let st := tied.foldl (fun (st : Option ℚ × ℕ × ℕ) i =>
    let L := if i < n then t.vals.getD i [] else (colsOf t.vals).getD (i - n) []
    let mn := listMin L
    let js := (List.range L.length).filter (fun j => decide (L.getD j 0 = mn))
    js.foldl (fun st j =>
      let rc : ℕ × ℕ := if i < n then (i, j) else (j, i - n)
      let amt := min (t.rows.getD rc.1 ("", 0)).2 (t.cols.getD rc.2 ("", 0)).2
      match st.1 with
      | none => (some amt, rc)
      | some b => if b < amt then (some amt, rc) else st) st) (none, 0, 0)
  st.2

def vamStep (t : TTable) : TTable × (String × String × ℚ) :=
  let rc := vamSelect t
  allocateStep t rc.1 rc.2

/-- Result of running a BFS constructor's `while` loop: the ordered
allocation triples, and whether the loop reached the empty (2, 2) table.
The python loop spins forever (or crashes computing penalties) if
exactly one of the two borders empties first; that is `finished = false`
with fuel exhausted. -/
structure BFSResult where
  alloc : List (String × String × ℚ)
  finished : Bool
  deriving Repr, DecidableEq

def vamLoop : ℕ → TTable → List (String × String × ℚ) → BFSResult
  | 0, _, acc => { alloc := acc, finished := false }
  | fuel + 1, t, acc =>
    if t.rows.isEmpty && t.cols.isEmpty then { alloc := acc, finished := true }
    else if t.rows.isEmpty || t.cols.isEmpty then { alloc := acc, finished := false }
    else
      let r := vamStep t
      vamLoop fuel r.1 (acc ++ [r.2])

/-- `VogelsApproximationMethod.solve`. -/
def vamSolve (t : TTable) : BFSResult :=
  vamLoop (t.rows.length + t.cols.length + 1) t []

/-- The in-place reduction step of `RussellsApproximationMethod.solve`:
`table[i+1, j+1] -= U[i] + V[j]` where `U`/`V` are the row/column maxima
of the *current* working block (which already carries the reductions of
all earlier iterations — the python code never restores the table). -/
def russellReduce (vals : List (List ℚ)) : List (List ℚ) :=
  let U := vals.map listMax
  let V := (colsOf vals).map listMax
  vals.enum.map (fun ri =>
    ri.2.enum.map (fun cj => cj.2 - (U.getD ri.1 0 + V.getD cj.1 0)))

/-- `np.argwhere(block == mins)[0]`: first row-major position attaining
the given value. -/
def firstEq (vals : List (List ℚ)) (mn : ℚ) : ℕ × ℕ :=
  match vals.enum.findSome? (fun ri =>
    (ri.2.enum.find? (fun cj => decide (cj.2 = mn))).map (fun cj => (ri.1, cj.1))) with
  | some rc => rc
  | none => (0, 0)

def russellStep (t : TTable) : TTable × (String × String × ℚ) :=
  let reduced := russellReduce t.vals
  let mn := listMin (reduced.map listMin)
  let rc := firstEq reduced mn
  allocateStep { t with vals := reduced } rc.1 rc.2

def russellLoop : ℕ → TTable → List (String × String × ℚ) → BFSResult
  | 0, _, acc => { alloc := acc, finished := false }
  | fuel + 1, t, acc =>
    if t.rows.isEmpty && t.cols.isEmpty then { alloc := acc, finished := true }
    else if t.rows.isEmpty || t.cols.isEmpty then { alloc := acc, finished := false }
    else
      let r := russellStep t
      russellLoop fuel r.1 (acc ++ [r.2])

/-- `RussellsApproximationMethod.solve`. -/
def russellSolve (t : TTable) : BFSResult :=
  russellLoop (t.rows.length + t.cols.length + 1) t []

/-- Modelled from the spec: the `Transportation` class (file
`transportation.py`) is imported by every driver but missing from the
sources.  Per the spec the table is a working copy of the costs
augmented with a leading row/column of labels and a trailing
row/column of remaining supply/demand; the drivers recover an index
from a label by dropping its first character (`int(r[1:])`), so row
labels are modelled as `"R<i>"` and column labels as `"C<j>"`. -/
def setupTable (cost : List (List ℚ)) (supply demand : List ℚ) : TTable :=
  { rows := (List.range cost.length).map (fun i => ("R" ++ Nat.repr i, supply.getD i 0)),
    cols := (List.range (cost.getD 0 []).length).map (fun j => ("C" ++ Nat.repr j, demand.getD j 0)),
    vals := cost }

/-- `int(r[1:])` as used by `MODI.__init__` and the drivers to turn a
label back into an index. -/
def parseLabel (s : String) : ℕ := ((s.drop 1).toNat?).getD 0

/-- `MODI.__init__` fed with the labelled triples a BFS constructor
produces. -/
def modiInitOfLabels (n m : ℕ) (bfs : List (String × String × ℚ)) : Alloc :=
  modiInit n m (bfs.map (fun e => ((parseLabel e.1, parseLabel e.2.1), e.2.2)))

theorem foldl_min_le_init (xs : List ℚ) (x : ℚ) : xs.foldl min x ≤ x := by
  induction xs generalizing x with
  | nil => simp
  | cons y ys ih => exact le_trans (ih (min x y)) (min_le_left x y)

theorem foldl_min_le_mem {xs : List ℚ} {a : ℚ} (x : ℚ) (h : a ∈ xs) :
    xs.foldl min x ≤ a := by
  induction xs generalizing x with
  | nil => cases h
  | cons y ys ih =>
    rcases List.mem_cons.1 h with rfl | h2
    · exact le_trans (foldl_min_le_init ys (min x a)) (min_le_right x a)
    · exact ih (min x y) h2

theorem foldl_min_mem (xs : List ℚ) (x : ℚ) :
    xs.foldl min x = x ∨ xs.foldl min x ∈ xs := by
  induction xs generalizing x with
  | nil => simp
  | cons y ys ih =>
    rcases ih (min x y) with h | h
    · rcases min_cases x y with ⟨he, _⟩ | ⟨he, _⟩
      · exact Or.inl (by rw [List.foldl_cons, h, he])
      · exact Or.inr (by rw [List.foldl_cons, h, he]; exact List.mem_cons_self y ys)
    · exact Or.inr (List.mem_cons_of_mem y h)

theorem init_le_foldl_max (xs : List ℚ) (x : ℚ) : x ≤ xs.foldl max x := by
  induction xs generalizing x with
  | nil => simp
  | cons y ys ih => exact le_trans (le_max_left x y) (ih (max x y))

theorem mem_le_foldl_max {xs : List ℚ} {a : ℚ} (x : ℚ) (h : a ∈ xs) :
    a ≤ xs.foldl max x := by
  induction xs generalizing x with
  | nil => cases h
  | cons y ys ih =>
    rcases List.mem_cons.1 h with rfl | h2
    · exact le_trans (le_max_right x a) (init_le_foldl_max ys (max x a))
    · exact ih (max x y) h2

theorem listMin_le {l : List ℚ} {a : ℚ} (h : a ∈ l) : listMin l ≤ a := by
  cases l with
  | nil => cases h
  | cons x xs =>
    rcases List.mem_cons.1 h with rfl | h2
    · exact foldl_min_le_init xs a
    · exact foldl_min_le_mem x h2

theorem le_listMax {l : List ℚ} {a : ℚ} (h : a ∈ l) : a ≤ listMax l := by
  cases l with
  | nil => cases h
  | cons x xs =>
    rcases List.mem_cons.1 h with rfl | h2
    · exact init_le_foldl_max xs a
    · exact mem_le_foldl_max x h2

theorem listMin_mem {l : List ℚ} (h : l ≠ []) : listMin l ∈ l := by
  cases l with
  | nil => exact absurd rfl h
  | cons x xs =>
    rcases foldl_min_mem xs x with he | he
    · simp only [listMin, he]
      exact List.mem_cons_self x xs
    · simp only [listMin]
      exact List.mem_cons_of_mem x he

theorem getD_map_listMax (vals : List (List ℚ)) (i : ℕ) :
    (vals.map listMax).getD i 0 = listMax (vals.getD i []) := by
  rcases lt_or_ge i vals.length with hi | hi
  · simp [List.getD_eq_getElem?_getD, List.getElem?_map, List.getElem?_eq_getElem hi]
  · rw [List.getD_eq_getElem?_getD, List.getD_eq_getElem?_getD,
      List.getElem?_eq_none (by simpa using hi), List.getElem?_eq_none hi]
    simp [listMax]

theorem getD_map_listMin (vals : List (List ℚ)) (i : ℕ) :
    (vals.map listMin).getD i 0 = listMin (vals.getD i []) := by
  rcases lt_or_ge i vals.length with hi | hi
  · simp [List.getD_eq_getElem?_getD, List.getElem?_map, List.getElem?_eq_getElem hi]
  · rw [List.getD_eq_getElem?_getD, List.getD_eq_getElem?_getD,
      List.getElem?_eq_none (by simpa using hi), List.getElem?_eq_none hi]
    simp [listMin]

theorem costAt_mem {vals : List (List ℚ)} {i j : ℕ}
    (_hi : i < vals.length) (hj : j < (vals.getD i []).length) :
    costAt vals i j ∈ vals.getD i [] := by
  rw [costAt, List.getD_eq_getElem?_getD (vals.getD i []), List.getElem?_eq_getElem hj]
  exact List.getElem_mem hj

/-- The in-place Russell reduction, entrywise: the current working value
minus the current working row and column maxima. -/
theorem russellReduce_entry (vals : List (List ℚ)) (i j : ℕ)
    (hi : i < vals.length) (hj : j < (vals.getD i []).length) :
    costAt (russellReduce vals) i j =
      costAt vals i j -
        (listMax (vals.getD i []) + listMax ((colsOf vals).getD j [])) := by
  have hrow : vals.getD i [] = vals[i] := by
    simp [List.getD_eq_getElem?_getD, List.getElem?_eq_getElem hi]
  rw [hrow] at hj
  have h1 : (russellReduce vals).getD i [] =
      vals[i].enum.map (fun cj => cj.2 -
        ((vals.map listMax).getD i 0 + ((colsOf vals).map listMax).getD cj.1 0)) := by
    simp [russellReduce, List.getD_eq_getElem?_getD, List.getElem?_map,
      List.getElem?_enum, List.getElem?_eq_getElem hi]
  rw [costAt, h1, List.getD_eq_getElem?_getD, List.getElem?_map, List.getElem?_enum,
    List.getElem?_eq_getElem hj]
  rcases lt_or_ge j (colsOf vals).length with hjc | hjc
  · simp [costAt, List.getD_eq_getElem?_getD, List.getElem?_eq_getElem hi,
      List.getElem?_eq_getElem hj, List.getElem?_eq_getElem hjc]
  · simp [costAt, List.getD_eq_getElem?_getD, List.getElem?_eq_getElem hi,
      List.getElem?_eq_getElem hj, List.getElem?_eq_none hjc, listMax]

theorem russellReduce_length (vals : List (List ℚ)) :
    (russellReduce vals).length = vals.length := by
  simp [russellReduce]

theorem russellReduce_row_length (vals : List (List ℚ)) (i : ℕ) :
    ((russellReduce vals).getD i []).length = (vals.getD i []).length := by
  rcases lt_or_ge i vals.length with hi | hi
  · have h1 : (russellReduce vals).getD i [] =
        (vals[i].enum.map (fun cj => cj.2 -
          ((vals.map listMax).getD i 0 + ((colsOf vals).map listMax).getD cj.1 0))) := by
      simp [russellReduce, List.getD_eq_getElem?_getD, List.getElem?_map,
        List.getElem?_enum, List.getElem?_eq_getElem hi]
    rw [h1]
    simp [List.getD_eq_getElem?_getD, List.getElem?_eq_getElem hi]
  · rw [List.getD_eq_getElem?_getD, List.getD_eq_getElem?_getD,
      List.getElem?_eq_none (by simpa [russellReduce_length] using hi),
      List.getElem?_eq_none hi]

/-- Each working value is at most its row maximum, and (when the value is
non-negative) at most its column maximum too, so a reduction pass over a
non-negative block leaves only non-positive values. -/
theorem russellReduce_nonpos (vals : List (List ℚ)) (i j : ℕ)
    (hi : i < vals.length) (hj : j < (vals.getD i []).length)
    (hnn : ∀ i' j', i' < vals.length → j' < (vals.getD i' []).length →
      0 ≤ costAt vals i' j') :
    costAt (russellReduce vals) i j ≤ 0 := by
  rw [russellReduce_entry vals i j hi hj]
  have hrowle : costAt vals i j ≤ listMax (vals.getD i []) :=
    le_listMax (costAt_mem hi hj)
  rcases lt_or_ge j (colsOf vals).length with hjc | hjc
  · have hcol : (colsOf vals).getD j [] = vals.map (fun row => row.getD j 0) := by
      simp only [colsOf] at hjc ⊢
      rw [List.getD_eq_getElem?_getD, List.getElem?_map]
      have : j < (List.range (vals.getD 0 []).length).length := by simpa using hjc
      rw [List.getElem?_eq_getElem this]
      simp
    have hmem : costAt vals i j ∈ (colsOf vals).getD j [] := by
      rw [hcol]
      have : costAt vals i j = (fun row => row.getD j 0) vals[i] := by
        simp [costAt, List.getD_eq_getElem?_getD, List.getElem?_eq_getElem hi]
      rw [this]
      exact List.mem_map_of_mem _ (vals.getElem_mem hi)
    have hnn0 : 0 ≤ costAt vals i j := hnn i j hi hj
    have hcolle : costAt vals i j ≤ listMax ((colsOf vals).getD j []) :=
      le_listMax hmem
    linarith
  · rw [List.getD_eq_getElem?_getD ((colsOf vals)), List.getElem?_eq_none hjc]
    have : listMax ([] : List ℚ) = 0 := rfl
    simp only [Option.getD_none, this]
    linarith

/-- `np.argwhere(block == mn)[0]` characterised: when some in-range entry
attains `mn`, `firstEq` returns an in-range position attaining it, and no
row-major-earlier in-range position attains it. -/
theorem firstEq_spec (vals : List (List ℚ)) (mn : ℚ)
    (hex : ∃ i j, i < vals.length ∧ j < (vals.getD i []).length ∧
      costAt vals i j = mn) :
    (firstEq vals mn).1 < vals.length ∧
    (firstEq vals mn).2 < (vals.getD (firstEq vals mn).1 []).length ∧
    costAt vals (firstEq vals mn).1 (firstEq vals mn).2 = mn ∧
    (∀ i j, i < vals.length → j < (vals.getD i []).length → costAt vals i j = mn →
      (firstEq vals mn).1 < i ∨ ((firstEq vals mn).1 = i ∧ (firstEq vals mn).2 ≤ j)) := by
  obtain ⟨i0, j0, hi0, hj0, hv0⟩ := hex
  set F : ℕ × List ℚ → Option (ℕ × ℕ) := fun ri =>
    (ri.2.enum.find? (fun cj => decide (cj.2 = mn))).map (fun cj => (ri.1, cj.1)) with hF
  have hrow0 : vals.getD i0 [] = vals[i0] := by
    simp [List.getD_eq_getElem?_getD, List.getElem?_eq_getElem hi0]
  have hj0lt : j0 < vals[i0].length := by rwa [hrow0] at hj0
  have hentry0 : vals[i0][j0] = mn := by
    rw [costAt, hrow0, List.getD_eq_getElem?_getD, List.getElem?_eq_getElem hj0lt] at hv0
    simpa using hv0
  have hmemi0 : (i0, vals[i0]) ∈ vals.enum := by
    refine List.getElem?_mem (n := i0) ?_
    rw [List.getElem?_enum, List.getElem?_eq_getElem hi0]
    rfl
  have hfind : vals.enum.findSome? F ≠ none := by
    intro hnone
    have hthis := (List.findSome?_eq_none_iff).1 hnone (i0, vals[i0]) hmemi0
    rw [hF] at hthis
    rw [Option.map_eq_none'] at hthis
    have hmemj : (j0, vals[i0][j0]) ∈ vals[i0].enum := by
      refine List.getElem?_mem (n := j0) ?_
      rw [List.getElem?_enum, List.getElem?_eq_getElem hj0lt]
      rfl
    have h2 := List.find?_eq_none.1 hthis (j0, vals[i0][j0]) hmemj
    simp [hentry0] at h2
  obtain ⟨rc, hrc⟩ := Option.ne_none_iff_exists'.1 hfind
  obtain ⟨l₁, a, l₂, henum, hfa, hl₁⟩ := List.findSome?_eq_some_iff.1 hrc
  have hidxa : vals.enum[l₁.length]? = some a := by
    rw [henum, List.getElem?_append_right (le_refl _)]
    simp
  have hlen1 : l₁.length < vals.length := by
    by_contra hge
    rw [List.getElem?_enum, List.getElem?_eq_none (by simpa using hge)] at hidxa
    simp at hidxa
  have ha : a = (l₁.length, vals[l₁.length]) := by
    rw [List.getElem?_enum, List.getElem?_eq_getElem hlen1] at hidxa
    simpa using hidxa.symm
  rw [ha, hF] at hfa
  simp only [Option.map_eq_some'] at hfa
  obtain ⟨cj, hcj, hrceq⟩ := hfa
  obtain ⟨hcjval, as, bs, hasbs, hasfail⟩ := List.find?_eq_some.1 hcj
  have hidxc : vals[l₁.length].enum[as.length]? = some cj := by
    rw [hasbs, List.getElem?_append_right (le_refl _)]
    simp
  have hlen2 : as.length < vals[l₁.length].length := by
    by_contra hge
    rw [List.getElem?_enum, List.getElem?_eq_none (by simpa using hge)] at hidxc
    simp at hidxc
  have hcjv : cj = (as.length, vals[l₁.length][as.length]) := by
    rw [List.getElem?_enum, List.getElem?_eq_getElem hlen2] at hidxc
    simpa using hidxc.symm
  have hrc1 : rc = (l₁.length, as.length) := by rw [← hrceq, hcjv]
  have hfirst : firstEq vals mn = rc := by
    rw [firstEq, hrc]
  have hrowrc : vals.getD l₁.length [] = vals[l₁.length] := by
    simp [List.getD_eq_getElem?_getD, List.getElem?_eq_getElem hlen1]
  have hvalrc : costAt vals l₁.length as.length = mn := by
    rw [costAt, hrowrc, List.getD_eq_getElem?_getD, List.getElem?_eq_getElem hlen2]
    rw [hcjv] at hcjval
    simpa using hcjval
  have hearlyrow : ∀ k, k < l₁.length → ∀ j, j < (vals.getD k []).length →
      costAt vals k j ≠ mn := by
    intro k hk j hj heq
    have hkv : k < vals.length := lt_trans hk hlen1
    have hrowk : vals.getD k [] = vals[k] := by
      simp [List.getD_eq_getElem?_getD, List.getElem?_eq_getElem hkv]
    have hjk : j < vals[k].length := by rwa [hrowk] at hj
    have hmemk : (k, vals[k]) ∈ l₁ := by
      have h1 : vals.enum[k]? = some (k, vals[k]) := by
        rw [List.getElem?_enum, List.getElem?_eq_getElem hkv]
        rfl
      rw [henum, List.getElem?_append, if_pos (by omega)] at h1
      exact List.getElem?_mem h1
    have hnone := hl₁ _ hmemk
    rw [hF] at hnone
    rw [Option.map_eq_none'] at hnone
    have hmemj : (j, vals[k][j]) ∈ vals[k].enum := by
      refine List.getElem?_mem (n := j) ?_
      rw [List.getElem?_enum, List.getElem?_eq_getElem hjk]
      rfl
    have h2 := List.find?_eq_none.1 hnone _ hmemj
    have hkj : vals[k][j] = mn := by
      rw [costAt, hrowk, List.getD_eq_getElem?_getD, List.getElem?_eq_getElem hjk] at heq
      simpa using heq
    simp [hkj] at h2
  have hearlycol : ∀ j, j < as.length → costAt vals l₁.length j ≠ mn := by
    intro j hj heq
    have hjlt : j < vals[l₁.length].length := lt_trans hj hlen2
    have hmemj : (j, vals[l₁.length][j]) ∈ as := by
      have h1 : vals[l₁.length].enum[j]? = some (j, vals[l₁.length][j]) := by
        rw [List.getElem?_enum, List.getElem?_eq_getElem hjlt]
        rfl
      rw [hasbs, List.getElem?_append, if_pos (by omega)] at h1
      exact List.getElem?_mem h1
    have h2 := hasfail _ hmemj
    have hkj : vals[l₁.length][j] = mn := by
      rw [costAt, hrowrc, List.getD_eq_getElem?_getD, List.getElem?_eq_getElem hjlt] at heq
      simpa using heq
    simp [hkj] at h2
  refine ⟨?_, ?_, ?_, ?_⟩
  · rw [hfirst, hrc1]; exact hlen1
  · rw [hfirst, hrc1]
    rw [show (vals.getD l₁.length []) = vals[l₁.length] from hrowrc]
    exact hlen2
  · rw [hfirst, hrc1]; exact hvalrc
  · intro i j hi hj hv
    rw [hfirst, hrc1]
    simp only
    rcases lt_trichotomy l₁.length i with hlt | heq | hgt
    · exact Or.inl hlt
    · subst heq
      refine Or.inr ⟨rfl, ?_⟩
      by_contra hjlt
      push_neg at hjlt
      exact hearlycol j hjlt hv
    · exact absurd hv (hearlyrow i hgt j hj)

/-- C4 counterexample: at the second step of Russell's method on the
balanced instance cost `[[1,2],[3,4]]`, supply `[1,2]`, demand `[2,1]`,
the working table already carries the first step's reduction, so the
value used as the active row maximum is `-4` while the original cost row
`[3,4]` has maximum `4`, and the second reduction leaves the working
value `+4 > 0`: the claimed invariants (U and V taken from the original
cost matrix, and every Delta nonpositive) both fail here. -/
theorem C4_counterexample :
    (russellStep (setupTable [[1, 2], [3, 4]] [1, 2] [2, 1])).1 =
      { rows := [("R1", 2)], cols := [("C0", 1), ("C1", 1)], vals := [[-4, -4]] } ∧
    listMax ((russellStep (setupTable [[1, 2], [3, 4]] [1, 2] [2, 1])).1.vals.getD 0 []) = -4 ∧
    listMax ([[(1 : ℚ), 2], [3, 4]].getD 1 []) = 4 ∧
    ((-4 : ℚ) ≠ 4) ∧
    costAt (russellReduce (russellStep (setupTable [[1, 2], [3, 4]] [1, 2] [2, 1])).1.vals) 0 0 = 4 ∧
    ¬ costAt (russellReduce (russellStep (setupTable [[1, 2], [3, 4]] [1, 2] [2, 1])).1.vals) 0 0 ≤ 0 := by
  with_unfolding_all decide

/-- C4 (amended): at every step Russell's strategy computes U and V as
the row and column maxima of the current working block — which carries
the accumulated reductions of all earlier steps, so only at the first
step are they maxima of original costs — subtracts `U_i + V_j` in place
from every active cell, and allocates at the first row-major cell
attaining the globally most negative working value; on a non-negative
block (hence at the first step on valid input) every reduced value
is ≤ 0. -/
theorem C4_amended (t : TTable) (red : List (List ℚ)) (mn : ℚ) (rc : ℕ × ℕ)
    (hred : red = russellReduce t.vals)
    (hmn : mn = listMin (red.map listMin))
    (hrc : rc = firstEq red mn) :
    (∀ i j, i < t.vals.length → j < (t.vals.getD i []).length →
      costAt red i j =
        costAt t.vals i j -
          (listMax (t.vals.getD i []) + listMax ((colsOf t.vals).getD j []))) ∧
    ((∀ i j, i < t.vals.length → j < (t.vals.getD i []).length →
        0 ≤ costAt t.vals i j) →
      ∀ i j, i < t.vals.length → j < (t.vals.getD i []).length →
        costAt red i j ≤ 0) ∧
    (t.vals ≠ [] → (∀ r ∈ t.vals, r ≠ []) →
      rc.1 < red.length ∧ rc.2 < (red.getD rc.1 []).length ∧
      costAt red rc.1 rc.2 = mn ∧
      (∀ i j, i < red.length → j < (red.getD i []).length →
        mn ≤ costAt red i j) ∧
      (∀ i j, i < red.length → j < (red.getD i []).length →
        costAt red i j = mn → rc.1 < i ∨ (rc.1 = i ∧ rc.2 ≤ j)) ∧
      russellStep t = allocateStep { t with vals := red } rc.1 rc.2) := by
  subst hred hmn hrc
  refine ⟨fun i j hi hj => russellReduce_entry t.vals i j hi hj,
    fun hnn i j hi hj => russellReduce_nonpos t.vals i j hi hj hnn, ?_⟩
  intro hne hrows
  have hlenred : (russellReduce t.vals).length = t.vals.length :=
    russellReduce_length t.vals
  have hglobal : ∀ i j, i < (russellReduce t.vals).length →
      j < ((russellReduce t.vals).getD i []).length →
      listMin ((russellReduce t.vals).map listMin) ≤
        costAt (russellReduce t.vals) i j := by
    intro i j hi hj
    have h1 : costAt (russellReduce t.vals) i j ∈ (russellReduce t.vals).getD i [] :=
      costAt_mem hi hj
    have h2 : listMin ((russellReduce t.vals).getD i []) ≤
        costAt (russellReduce t.vals) i j := listMin_le h1
    have h3 : listMin ((russellReduce t.vals).getD i []) ∈
        (russellReduce t.vals).map listMin := by
      have hrowi : (russellReduce t.vals).getD i [] = (russellReduce t.vals)[i] := by
        simp [List.getD_eq_getElem?_getD, List.getElem?_eq_getElem hi]
      rw [hrowi]
      exact List.mem_map_of_mem listMin (List.getElem_mem hi)
    exact le_trans (listMin_le h3) h2
  have hexmin : ∃ i j, i < (russellReduce t.vals).length ∧
      j < ((russellReduce t.vals).getD i []).length ∧
      costAt (russellReduce t.vals) i j =
        listMin ((russellReduce t.vals).map listMin) := by
    have hmapne : (russellReduce t.vals).map listMin ≠ [] := by
      intro hcon
      exact hne (by simpa [hlenred] using congrArg List.length hcon)
    have hmem := listMin_mem hmapne
    obtain ⟨row, hrowmem, hrowval⟩ := List.mem_map.1 hmem
    obtain ⟨i, hi, hieq⟩ := List.mem_iff_getElem.1 hrowmem
    have hrowi : (russellReduce t.vals).getD i [] = row := by
      simp [List.getD_eq_getElem?_getD, List.getElem?_eq_getElem hi, hieq]
    have hrowlen : row.length = (t.vals.getD i []).length := by
      rw [← hrowi]; exact russellReduce_row_length t.vals i
    have hrowne : row ≠ [] := by
      intro hcon
      have hivals : i < t.vals.length := by rwa [hlenred] at hi
      have : t.vals.getD i [] ∈ t.vals := by
        rw [show t.vals.getD i [] = t.vals[i] by
          simp [List.getD_eq_getElem?_getD, List.getElem?_eq_getElem hivals]]
        exact List.getElem_mem hivals
      have := hrows _ this
      rw [hcon] at hrowlen
      exact this (List.length_eq_zero.1 hrowlen.symm)
    obtain ⟨j, hj, hjeq⟩ := List.mem_iff_getElem.1 (listMin_mem hrowne)
    refine ⟨i, j, hi, by rwa [hrowi], ?_⟩
    rw [costAt, hrowi, List.getD_eq_getElem?_getD, List.getElem?_eq_getElem hj]
    rw [← hrowval]
    simpa using hjeq
  obtain ⟨h1, h2, h3, h4⟩ := firstEq_spec (russellReduce t.vals)
    (listMin ((russellReduce t.vals).map listMin)) hexmin
  exact ⟨h1, h2, h3, hglobal, h4, rfl⟩

/-- C7 counterexample: the unbalanced, negative-cost input passes through
the entry points unchecked — `MODI.__init__` loads the basis and `solve`
runs to a normal optimal-shaped result, and the BFS constructor on the
unbalanced table performs allocations (mutating the table) rather than
rejecting. -/
theorem C7_counterexample :
    ([(5 : ℚ), 7].sum ≠ [(4 : ℚ), 9].sum) ∧
    costAt [[-1, 2], [3, 4]] 0 0 < 0 ∧
    modiRun [[-1, 2], [3, 4]] [((0, 0), 4), ((0, 1), 1), ((1, 1), 8)] =
      ([((0, 0), 4), ((0, 1), 1), ((1, 1), 8)], ExitKind.optimal) ∧
    (vamSolve (setupTable [[-1, 2], [3, 4]] [5, 7] [4, 9])).alloc ≠ [] := by
  with_unfolding_all decide

/-- C7 (amended): the core performs no input validation at its entry
points: on a cost matrix with a negative entry and totals 12 vs 13 the
refinement engine returns an ordinary (basis, cost) result, and Vogel's
constructor proceeds to allocate from the unbalanced table. -/
theorem C7_amended :
    modiSolve [[-1, 2], [3, 4]] [((0, 0), 4), ((0, 1), 1), ((1, 1), 8)] =
      ([((0, 0), 4), ((0, 1), 1), ((1, 1), 8)], 30) ∧
    (vamSolve (setupTable [[-1, 2], [3, 4]] [5, 7] [4, 9])).alloc =
      [("R0", "C0", 4), ("R1", "C1", 7), ("R0", "C1", 1)] := by
  with_unfolding_all decide

/-- C10 counterexample: the first triple returned by the BFS constructor
on the 2-by-2 instance carries the label string "R0", which is not the
decimal numeral of any row index of the cost matrix: the triples identify
cells by header label strings, not by the original integer indices. -/
theorem C10_counterexample :
    ((vamSolve (setupTable [[1, 2], [3, 4]] [5, 5] [5, 5])).alloc.getD 0 ("", "", 0)).1 = "R0" ∧
    (∀ i : ℕ, i < 2 → Nat.repr i ≠ "R0") := by
  with_unfolding_all decide

/-- Witness for C4 (amended) at the concrete first table of the
counterexample instance. -/
theorem C4_amended_witness :
    costAt (russellReduce (setupTable [[1, 2], [3, 4]] [1, 2] [2, 1]).vals) 0 0 =
      costAt (setupTable [[1, 2], [3, 4]] [1, 2] [2, 1]).vals 0 0 -
        (listMax ((setupTable [[1, 2], [3, 4]] [1, 2] [2, 1]).vals.getD 0 []) +
          listMax ((colsOf (setupTable [[1, 2], [3, 4]] [1, 2] [2, 1]).vals).getD 0 [])) ∧
    russellStep (setupTable [[1, 2], [3, 4]] [1, 2] [2, 1]) =
      allocateStep
        { setupTable [[1, 2], [3, 4]] [1, 2] [2, 1] with
            vals := russellReduce (setupTable [[1, 2], [3, 4]] [1, 2] [2, 1]).vals }
        (firstEq (russellReduce (setupTable [[1, 2], [3, 4]] [1, 2] [2, 1]).vals)
          (listMin ((russellReduce (setupTable [[1, 2], [3, 4]] [1, 2] [2, 1]).vals).map listMin))).1
        (firstEq (russellReduce (setupTable [[1, 2], [3, 4]] [1, 2] [2, 1]).vals)
          (listMin ((russellReduce (setupTable [[1, 2], [3, 4]] [1, 2] [2, 1]).vals).map listMin))).2 := by
  have h := C4_amended (setupTable [[1, 2], [3, 4]] [1, 2] [2, 1]) _ _ _ rfl rfl rfl
  refine ⟨h.1 0 0 (by with_unfolding_all decide) (by with_unfolding_all decide), ?_⟩
  refine (h.2.2 (by with_unfolding_all decide) ?_).2.2.2.2.2
  intro r hr
  have hsimp : (setupTable [[1, 2], [3, 4]] [1, 2] [2, 1]).vals =
      [[(1 : ℚ), 2], [3, 4]] := by with_unfolding_all rfl
  rw [hsimp] at hr
  simp only [List.mem_cons, List.not_mem_nil, or_false] at hr
  rcases hr with rfl | rfl <;> simp

/-- Both potentials needed by cell `c` are currently known. -/
def definedAt (u v : List (Option ℚ)) (c : Cell) : Bool :=
  (u.getD c.1 none).isSome && (v.getD c.2 none).isSome

/-- The opportunity value `u[i] + v[j] - cost[i][j]` of a cell (with the
convention that an unknown potential reads as 0; it is only used where
`definedAt` holds). -/
def oppVal (cost : List (List ℚ)) (u v : List (Option ℚ)) (c : Cell) : ℚ :=
  (u.getD c.1 none).getD 0 + (v.getD c.2 none).getD 0 - costAt cost c.1 c.2

/-- Cell `c` gives `_compute_uv` nothing to derive: it is not the case
that exactly one of its two potentials is known. -/
def noFire (u v : List (Option ℚ)) (k : Cell) : Bool :=
  !((u.getD k.1 none).isSome && (v.getD k.2 none).isNone) &&
    !((v.getD k.2 none).isSome && (u.getD k.1 none).isNone)

theorem mem_allCells {n m : ℕ} {c : Cell} :
    c ∈ allCells n m ↔ c.1 < n ∧ c.2 < m := by
  cases c with
  | mk i j =>
    simp [allCells, List.mem_flatMap]

theorem selStep_basic {cost : List (List ℚ)} {a : Alloc} {u v : List (Option ℚ)}
    {c : Cell} {b : ℚ} {ent : Option Cell} (hkey : hasKey a c = true) :
    selStep cost a u v (.ok (b, ent)) c = .ok (b, ent) := by
  simp only [selStep, hkey, if_true]

theorem selStep_undef {cost : List (List ℚ)} {a : Alloc} {u v : List (Option ℚ)}
    {c : Cell} {b : ℚ} {ent : Option Cell} (hkey : hasKey a c = false)
    (hdef : definedAt u v c = false) :
    selStep cost a u v (.ok (b, ent)) c = .error () := by
  simp only [selStep, hkey, Bool.false_eq_true, if_false]
  rw [definedAt] at hdef
  rcases hu : u.getD c.1 none with _ | x
  · cases v.getD c.2 none <;> rfl
  · rcases hv : v.getD c.2 none with _ | y
    · rfl
    · rw [hu, hv] at hdef; simp at hdef

theorem selStep_up {cost : List (List ℚ)} {a : Alloc} {u v : List (Option ℚ)}
    {c : Cell} {b : ℚ} {ent : Option Cell} {x y : ℚ} (hkey : hasKey a c = false)
    (hu : u.getD c.1 none = some x) (hv : v.getD c.2 none = some y)
    (hlt : b < x + y - costAt cost c.1 c.2) :
    selStep cost a u v (.ok (b, ent)) c =
      .ok (x + y - costAt cost c.1 c.2, some c) := by
  simp only [selStep, hkey, Bool.false_eq_true, if_false]
  rw [hu, hv]
  simp only [hlt, if_true]

theorem selStep_keep {cost : List (List ℚ)} {a : Alloc} {u v : List (Option ℚ)}
    {c : Cell} {b : ℚ} {ent : Option Cell} {x y : ℚ} (hkey : hasKey a c = false)
    (hu : u.getD c.1 none = some x) (hv : v.getD c.2 none = some y)
    (hlt : ¬ b < x + y - costAt cost c.1 c.2) :
    selStep cost a u v (.ok (b, ent)) c = .ok (b, ent) := by
  simp only [selStep, hkey, Bool.false_eq_true, if_false]
  rw [hu, hv]
  simp only [hlt, if_false]

theorem selfold_error (cost : List (List ℚ)) (a : Alloc) (u v : List (Option ℚ)) :
    ∀ (l : List Cell), l.foldl (selStep cost a u v) (.error ()) = .error () := by
  intro l
  induction l with
  | nil => rfl
  | cons c rest ih => simpa [selStep] using ih

/-- If the scan meets a non-basic cell one of whose potentials is still
unknown, it raises (python: `TypeError` adding `None`). -/
theorem selfold_raises (cost : List (List ℚ)) (a : Alloc) (u v : List (Option ℚ)) :
    ∀ (l : List Cell) (st : Except Unit (ℚ × Option Cell)),
      (∃ c ∈ l, hasKey a c = false ∧ definedAt u v c = false) →
      l.foldl (selStep cost a u v) st = .error () := by
  intro l
  induction l with
  | nil => rintro st ⟨c, hc, -⟩; cases hc
  | cons d rest ih =>
    rintro st ⟨c, hc, hkey, hdef⟩
    rcases List.mem_cons.1 hc with rfl | hmem
    · cases st with
      | error e =>
        cases e
        exact selfold_error cost a u v (c :: rest)
      | ok p =>
        obtain ⟨b, ent⟩ := p
        rw [List.foldl_cons, selStep_undef hkey hdef]
        exact selfold_error cost a u v rest
    · cases hst : selStep cost a u v st d with
      | error e =>
        cases e
        rw [List.foldl_cons, hst]
        exact selfold_error cost a u v rest
      | ok p =>
        rw [List.foldl_cons, hst]
        exact ih _ ⟨c, hmem, hkey, hdef⟩

/-- Once an entering candidate is recorded the scan never forgets it. -/
theorem selfold_some_persists (cost : List (List ℚ)) (a : Alloc)
    (u v : List (Option ℚ)) :
    ∀ (l : List Cell) (b : ℚ) (e : Cell) (b' : ℚ) (ent' : Option Cell),
      l.foldl (selStep cost a u v) (.ok (b, some e)) = .ok (b', ent') →
      ∃ e', ent' = some e' := by
  intro l
  induction l with
  | nil =>
    intro b e b' ent' h
    rw [List.foldl_nil] at h
    cases h
    exact ⟨e, rfl⟩
  | cons d rest ih =>
    intro b e b' ent' h
    rw [List.foldl_cons] at h
    by_cases hkey : hasKey a d
    · rw [selStep_basic hkey] at h
      exact ih _ _ _ _ h
    · rcases hdef : definedAt u v d with _ | _
      · rw [selStep_undef (by simpa using hkey) hdef, selfold_error] at h
        cases h
      · rw [definedAt] at hdef
        rcases hu : u.getD d.1 none with _ | x
        · rw [hu] at hdef; simp at hdef
        · rcases hv : v.getD d.2 none with _ | y
          · rw [hu, hv] at hdef; simp at hdef
          · by_cases hlt : b < x + y - costAt cost d.1 d.2
            · rw [selStep_up (by simpa using hkey) hu hv hlt] at h
              exact ih _ _ _ _ h
            · rw [selStep_keep (by simpa using hkey) hu hv hlt] at h
              exact ih _ _ _ _ h

/-- A scan that ends with no entering cell kept its threshold and saw
every non-basic cell defined with opportunity value at most that
threshold. -/
theorem selfold_none (cost : List (List ℚ)) (a : Alloc) (u v : List (Option ℚ)) :
    ∀ (l : List Cell) (b : ℚ) (b' : ℚ),
      l.foldl (selStep cost a u v) (.ok (b, none)) = .ok (b', none) →
      b' = b ∧ ∀ c ∈ l, hasKey a c = false →
        definedAt u v c = true ∧ oppVal cost u v c ≤ b := by
  intro l
  induction l with
  | nil =>
    intro b b' h
    rw [List.foldl_nil] at h
    cases h
    exact ⟨rfl, by rintro c hc; cases hc⟩
  | cons d rest ih =>
    intro b b' h
    rw [List.foldl_cons] at h
    by_cases hkey : hasKey a d
    · rw [selStep_basic hkey] at h
      obtain ⟨hb, hall⟩ := ih b b' h
      refine ⟨hb, ?_⟩
      intro c hc hk
      rcases List.mem_cons.1 hc with rfl | hmem
      · rw [hkey] at hk; cases hk
      · exact hall c hmem hk
    · rcases hdef : definedAt u v d with _ | _
      · rw [selStep_undef (by simpa using hkey) hdef, selfold_error] at h
        cases h
      · have hdef2 := hdef
        rw [definedAt] at hdef2
        rcases hu : u.getD d.1 none with _ | x
        · rw [hu] at hdef2; simp at hdef2
        · rcases hv : v.getD d.2 none with _ | y
          · rw [hu, hv] at hdef2; simp at hdef2
          · by_cases hlt : b < x + y - costAt cost d.1 d.2
            · rw [selStep_up (by simpa using hkey) hu hv hlt] at h
              obtain ⟨e', he'⟩ := selfold_some_persists cost a u v rest _ _ _ _ h
              cases he'
            · rw [selStep_keep (by simpa using hkey) hu hv hlt] at h
              obtain ⟨hb, hall⟩ := ih b b' h
              refine ⟨hb, ?_⟩
              intro c hc hk
              rcases List.mem_cons.1 hc with rfl | hmem
              · rw [oppVal, hu, hv]
                simp only [Option.getD_some]
                exact ⟨hdef, by linarith [not_lt.1 hlt]⟩
              · exact hall c hmem hk

/-- A scan over cells that are all basic or have opportunity value at
most the threshold changes nothing. -/
theorem selfold_keep (cost : List (List ℚ)) (a : Alloc) (u v : List (Option ℚ)) :
    ∀ (l : List Cell) (b : ℚ) (ent : Option Cell),
      (∀ c ∈ l, hasKey a c = false →
        definedAt u v c = true ∧ oppVal cost u v c ≤ b) →
      l.foldl (selStep cost a u v) (.ok (b, ent)) = .ok (b, ent) := by
  intro l
  induction l with
  | nil => intro b ent _; rfl
  | cons d rest ih =>
    intro b ent hall
    rw [List.foldl_cons]
    by_cases hkey : hasKey a d
    · rw [selStep_basic hkey]
      exact ih b ent (fun c hc => hall c (List.mem_cons_of_mem d hc))
    · obtain ⟨hdef, hle⟩ := hall d (List.mem_cons_self d rest) (by simpa using hkey)
      rw [definedAt] at hdef
      rcases hu : u.getD d.1 none with _ | x
      · rw [hu] at hdef; simp at hdef
      · rcases hv : v.getD d.2 none with _ | y
        · rw [hu, hv] at hdef; simp at hdef
        · have hnl : ¬ b < x + y - costAt cost d.1 d.2 := by
            rw [oppVal, hu, hv] at hle
            simp only [Option.getD_some] at hle
            linarith
          rw [selStep_keep (by simpa using hkey) hu hv hnl]
          exact ih b ent (fun c hc => hall c (List.mem_cons_of_mem d hc))

/-- Full characterisation of a scan that returns an entering cell: either
the candidate was already in the start state and nothing beat the
threshold, or the returned cell is the first cell attaining the final
(strictly raised) threshold, every earlier non-basic cell lying strictly
below it and every later one at or below it. -/
theorem selfold_some (cost : List (List ℚ)) (a : Alloc) (u v : List (Option ℚ)) :
    ∀ (l : List Cell) (b : ℚ) (ent : Option Cell) (b' : ℚ) (e : Cell),
      l.foldl (selStep cost a u v) (.ok (b, ent)) = .ok (b', some e) →
      (ent = some e ∧ b' = b ∧ ∀ c ∈ l, hasKey a c = false →
        definedAt u v c = true ∧ oppVal cost u v c ≤ b) ∨
      (b < b' ∧ hasKey a e = false ∧ definedAt u v e = true ∧
        oppVal cost u v e = b' ∧
        ∃ l₁ l₂, l = l₁ ++ e :: l₂ ∧
          (∀ c ∈ l₁, hasKey a c = false →
            definedAt u v c = true ∧ oppVal cost u v c < b') ∧
          (∀ c ∈ l₂, hasKey a c = false →
            definedAt u v c = true ∧ oppVal cost u v c ≤ b')) := by
  intro l
  induction l with
  | nil =>
    intro b ent b' e h
    rw [List.foldl_nil] at h
    cases h
    exact Or.inl ⟨rfl, rfl, by rintro c hc; cases hc⟩
  | cons d rest ih =>
    intro b ent b' e h
    rw [List.foldl_cons] at h
    by_cases hkey : hasKey a d
    · rw [selStep_basic hkey] at h
      rcases ih b ent b' e h with ⟨h1, h2, h3⟩ | ⟨h1, h2, h3, h4, l₁, l₂, h5, h6, h7⟩
      · refine Or.inl ⟨h1, h2, ?_⟩
        intro c hc hk
        rcases List.mem_cons.1 hc with rfl | hmem
        · rw [hkey] at hk; cases hk
        · exact h3 c hmem hk
      · refine Or.inr ⟨h1, h2, h3, h4, d :: l₁, l₂, by rw [h5]; rfl, ?_, h7⟩
        intro c hc hk
        rcases List.mem_cons.1 hc with rfl | hmem
        · rw [hkey] at hk; cases hk
        · exact h6 c hmem hk
    · rcases hdef : definedAt u v d with _ | _
      · rw [selStep_undef (by simpa using hkey) hdef, selfold_error] at h
        cases h
      · have hdef2 := hdef
        rw [definedAt] at hdef2
        rcases hu : u.getD d.1 none with _ | x
        · rw [hu] at hdef2; simp at hdef2
        · rcases hv : v.getD d.2 none with _ | y
          · rw [hu, hv] at hdef2; simp at hdef2
          · have hoppd : oppVal cost u v d = x + y - costAt cost d.1 d.2 := by
              rw [oppVal, hu, hv]; simp
            by_cases hlt : b < x + y - costAt cost d.1 d.2
            · rw [selStep_up (by simpa using hkey) hu hv hlt] at h
              rcases ih _ _ b' e h with ⟨h1, h2, h3⟩ |
                ⟨h1, h2, h3, h4, l₁, l₂, h5, h6, h7⟩
              · cases h1
                refine Or.inr ⟨by rw [h2]; exact hlt, by simpa using hkey, hdef,
                  by rw [hoppd, h2], [], rest, rfl, ?_, ?_⟩
                · rintro c hc
                  cases hc
                · intro c hc hk
                  obtain ⟨hd, ho⟩ := h3 c hc hk
                  exact ⟨hd, by rw [← h2] at ho; exact ho⟩
              · refine Or.inr ⟨lt_trans hlt h1, h2, h3, h4, d :: l₁, l₂,
                  by rw [h5]; rfl, ?_, h7⟩
                intro c hc hk
                rcases List.mem_cons.1 hc with rfl | hmem
                · exact ⟨hdef, by rw [hoppd]; exact h1⟩
                · exact h6 c hmem hk
            · rw [selStep_keep (by simpa using hkey) hu hv hlt] at h
              rcases ih b ent b' e h with ⟨h1, h2, h3⟩ |
                ⟨h1, h2, h3, h4, l₁, l₂, h5, h6, h7⟩
              · refine Or.inl ⟨h1, h2, ?_⟩
                intro c hc hk
                rcases List.mem_cons.1 hc with rfl | hmem
                · exact ⟨hdef, by rw [hoppd]; linarith [not_lt.1 hlt]⟩
                · exact h3 c hmem hk
              · refine Or.inr ⟨h1, h2, h3, h4, d :: l₁, l₂, by rw [h5]; rfl, ?_, h7⟩
                intro c hc hk
                rcases List.mem_cons.1 hc with rfl | hmem
                · refine ⟨hdef, ?_⟩
                  rw [hoppd]
                  calc x + y - costAt cost c.1 c.2 ≤ b := not_lt.1 hlt
                  _ < b' := h1
                · exact h6 c hmem hk

def dcount (u v : List (Option ℚ)) : ℕ :=
  u.countP Option.isSome + v.countP Option.isSome

theorem uvStep_fire1 {cost : List (List ℚ)} {u v : List (Option ℚ)} {f : Bool}
    {k : Cell} {x : ℚ} (hu : u.getD k.1 none = some x) (hv : v.getD k.2 none = none) :
    uvStep cost (u, v, f) k = (u, v.set k.2 (some (costAt cost k.1 k.2 - x)), true) := by
  simp only [uvStep]
  rw [hu, hv]

theorem uvStep_fire2 {cost : List (List ℚ)} {u v : List (Option ℚ)} {f : Bool}
    {k : Cell} {y : ℚ} (hu : u.getD k.1 none = none) (hv : v.getD k.2 none = some y) :
    uvStep cost (u, v, f) k = (u.set k.1 (some (costAt cost k.1 k.2 - y)), v, true) := by
  simp only [uvStep]
  rw [hu, hv]

theorem uvStep_id_nn {cost : List (List ℚ)} {u v : List (Option ℚ)} {f : Bool}
    {k : Cell} (hu : u.getD k.1 none = none) (hv : v.getD k.2 none = none) :
    uvStep cost (u, v, f) k = (u, v, f) := by
  simp only [uvStep]
  rw [hu, hv]

theorem uvStep_id_ss {cost : List (List ℚ)} {u v : List (Option ℚ)} {f : Bool}
    {k : Cell} {x y : ℚ} (hu : u.getD k.1 none = some x) (hv : v.getD k.2 none = some y) :
    uvStep cost (u, v, f) k = (u, v, f) := by
  simp only [uvStep]
  rw [hu, hv]

theorem uvfold_flag (cost : List (List ℚ)) :
    ∀ (ks : List Cell) (u v : List (Option ℚ)),
      (ks.foldl (uvStep cost) (u, v, true)).2.2 = true := by
  intro ks
  induction ks with
  | nil => intro u v; rfl
  | cons k rest ih =>
    intro u v
    rw [List.foldl_cons]
    rcases hu : u.getD k.1 none with _ | x
    · rcases hv : v.getD k.2 none with _ | y
      · rw [uvStep_id_nn hu hv]; exact ih u v
      · rw [uvStep_fire2 hu hv]; exact ih _ v
    · rcases hv : v.getD k.2 none with _ | y
      · rw [uvStep_fire1 hu hv]; exact ih u _
      · rw [uvStep_id_ss hu hv]; exact ih u v

/-- A pass that derives nothing leaves the potentials untouched, and then
no basic cell has exactly one known endpoint (the stall is a fixpoint). -/
theorem uvfold_stall (cost : List (List ℚ)) :
    ∀ (ks : List Cell) (u v : List (Option ℚ)),
      (ks.foldl (uvStep cost) (u, v, false)).2.2 = false →
      ks.foldl (uvStep cost) (u, v, false) = (u, v, false) ∧
        ∀ k ∈ ks, noFire u v k = true := by
  intro ks
  induction ks with
  | nil => intro u v _; exact ⟨rfl, by rintro k hk; cases hk⟩
  | cons k rest ih =>
    intro u v hflag
    rw [List.foldl_cons] at hflag ⊢
    rcases hu : u.getD k.1 none with _ | x
    · rcases hv : v.getD k.2 none with _ | y
      · rw [uvStep_id_nn hu hv] at hflag ⊢
        obtain ⟨heq, hall⟩ := ih u v hflag
        refine ⟨heq, ?_⟩
        intro c hc
        rcases List.mem_cons.1 hc with rfl | hmem
        · rw [noFire, hu, hv]; rfl
        · exact hall c hmem
      · rw [uvStep_fire2 hu hv] at hflag
        rw [uvfold_flag] at hflag
        cases hflag
    · rcases hv : v.getD k.2 none with _ | y
      · rw [uvStep_fire1 hu hv] at hflag
        rw [uvfold_flag] at hflag
        cases hflag
      · rw [uvStep_id_ss hu hv] at hflag ⊢
        obtain ⟨heq, hall⟩ := ih u v hflag
        refine ⟨heq, ?_⟩
        intro c hc
        rcases List.mem_cons.1 hc with rfl | hmem
        · rw [noFire, hu, hv]; rfl
        · exact hall c hmem

theorem uvfold_lengths (cost : List (List ℚ)) :
    ∀ (ks : List Cell) (u v : List (Option ℚ)) (f : Bool),
      (ks.foldl (uvStep cost) (u, v, f)).1.length = u.length ∧
      (ks.foldl (uvStep cost) (u, v, f)).2.1.length = v.length := by
  intro ks
  induction ks with
  | nil => intro u v f; exact ⟨rfl, rfl⟩
  | cons k rest ih =>
    intro u v f
    rw [List.foldl_cons]
    rcases hu : u.getD k.1 none with _ | x
    · rcases hv : v.getD k.2 none with _ | y
      · rw [uvStep_id_nn hu hv]; exact ih u v f
      · rw [uvStep_fire2 hu hv]
        obtain ⟨h1, h2⟩ := ih (u.set k.1 (some (costAt cost k.1 k.2 - y))) v true
        exact ⟨by rw [h1, List.length_set], h2⟩
    · rcases hv : v.getD k.2 none with _ | y
      · rw [uvStep_fire1 hu hv]
        obtain ⟨h1, h2⟩ := ih u (v.set k.2 (some (costAt cost k.1 k.2 - x))) true
        exact ⟨h1, by rw [h2, List.length_set]⟩
      · rw [uvStep_id_ss hu hv]; exact ih u v f

theorem getD_set_isSome {l : List (Option ℚ)} {idx : ℕ} {x : ℚ} {i : ℕ}
    (h : (l.getD i none).isSome = true) :
    ((l.set idx (some x)).getD i none).isSome = true := by
  rw [List.getD_eq_getElem?_getD, List.getElem?_set]
  rcases eq_or_ne idx i with rfl | hne
  · rcases lt_or_ge idx l.length with hlt | hge
    · simp [hlt]
    · rw [List.getD_eq_getElem?_getD, List.getElem?_eq_none hge] at h
      simp at h
  · simp only [hne, if_false]
    rw [List.getD_eq_getElem?_getD] at h
    exact h

theorem uvfold_mono (cost : List (List ℚ)) :
    ∀ (ks : List Cell) (u v : List (Option ℚ)) (f : Bool) (i : ℕ),
      ((u.getD i none).isSome = true →
        ((ks.foldl (uvStep cost) (u, v, f)).1.getD i none).isSome = true) ∧
      ((v.getD i none).isSome = true →
        ((ks.foldl (uvStep cost) (u, v, f)).2.1.getD i none).isSome = true) := by
  intro ks
  induction ks with
  | nil => intro u v f i; exact ⟨fun h => h, fun h => h⟩
  | cons k rest ih =>
    intro u v f i
    rw [List.foldl_cons]
    rcases hu : u.getD k.1 none with _ | x
    · rcases hv : v.getD k.2 none with _ | y
      · rw [uvStep_id_nn hu hv]; exact ih u v f i
      · rw [uvStep_fire2 hu hv]
        obtain ⟨h1, h2⟩ := ih (u.set k.1 (some (costAt cost k.1 k.2 - y))) v true i
        exact ⟨fun h => h1 (getD_set_isSome h), h2⟩
    · rcases hv : v.getD k.2 none with _ | y
      · rw [uvStep_fire1 hu hv]
        obtain ⟨h1, h2⟩ := ih u (v.set k.2 (some (costAt cost k.1 k.2 - x))) true i
        exact ⟨h1, fun h => h2 (getD_set_isSome h)⟩
      · rw [uvStep_id_ss hu hv]; exact ih u v f i

theorem countP_set_incr {l : List (Option ℚ)} {idx : ℕ} {x : ℚ}
    (hnone : l.getD idx none = none) (hlt : idx < l.length) :
    (l.set idx (some x)).countP Option.isSome = l.countP Option.isSome + 1 := by
  rw [List.countP_set _ _ _ _ hlt]
  have : l[idx] = none := by
    rw [List.getD_eq_getElem?_getD, List.getElem?_eq_getElem hlt] at hnone
    simpa using hnone
  simp [this]

theorem uvfold_dcount_mono (cost : List (List ℚ)) :
    ∀ (ks : List Cell) (u v : List (Option ℚ)) (f : Bool),
      dcount u v ≤
        dcount (ks.foldl (uvStep cost) (u, v, f)).1
          (ks.foldl (uvStep cost) (u, v, f)).2.1 := by
  intro ks
  induction ks with
  | nil => intro u v f; exact le_refl _
  | cons k rest ih =>
    intro u v f
    rw [List.foldl_cons]
    rcases hu : u.getD k.1 none with _ | x
    · rcases hv : v.getD k.2 none with _ | y
      · rw [uvStep_id_nn hu hv]; exact ih u v f
      · rw [uvStep_fire2 hu hv]
        refine le_trans ?_ (ih _ v true)
        rcases lt_or_ge k.1 u.length with hlt | hge
        · rw [dcount, dcount, countP_set_incr hu hlt]
          omega
        · rw [List.set_eq_of_length_le hge]
    · rcases hv : v.getD k.2 none with _ | y
      · rw [uvStep_fire1 hu hv]
        refine le_trans ?_ (ih u _ true)
        rcases lt_or_ge k.2 v.length with hlt | hge
        · rw [dcount, dcount, countP_set_incr hv hlt]
          omega
        · rw [List.set_eq_of_length_le hge]
      · rw [uvStep_id_ss hu hv]; exact ih u v f

theorem uvfold_dcount_fire (cost : List (List ℚ)) :
    ∀ (ks : List Cell) (u v : List (Option ℚ)),
      (∀ k ∈ ks, k.1 < u.length ∧ k.2 < v.length) →
      (ks.foldl (uvStep cost) (u, v, false)).2.2 = true →
      dcount u v <
        dcount (ks.foldl (uvStep cost) (u, v, false)).1
          (ks.foldl (uvStep cost) (u, v, false)).2.1 := by
  intro ks
  induction ks with
  | nil => intro u v _ h; cases h
  | cons k rest ih =>
    intro u v hrange hflag
    rw [List.foldl_cons] at hflag ⊢
    obtain ⟨hk1, hk2⟩ := hrange k (List.mem_cons_self k rest)
    rcases hu : u.getD k.1 none with _ | x
    · rcases hv : v.getD k.2 none with _ | y
      · rw [uvStep_id_nn hu hv] at hflag ⊢
        exact ih u v (fun c hc => hrange c (List.mem_cons_of_mem k hc)) hflag
      · rw [uvStep_fire2 hu hv]
        refine lt_of_lt_of_le ?_ (uvfold_dcount_mono cost rest _ v true)
        rw [dcount, dcount, countP_set_incr hu hk1]
        omega
    · rcases hv : v.getD k.2 none with _ | y
      · rw [uvStep_fire1 hu hv]
        refine lt_of_lt_of_le ?_ (uvfold_dcount_mono cost rest u _ true)
        rw [dcount, dcount, countP_set_incr hv hk2]
        omega
      · rw [uvStep_id_ss hu hv] at hflag ⊢
        exact ih u v (fun c hc => hrange c (List.mem_cons_of_mem k hc)) hflag

/-- With enough fuel the propagation loop either completes or stalls at a
fixpoint: if the returned potentials are incomplete, no basic cell can
derive anything from them. -/
theorem uvLoop_fix (cost : List (List ℚ)) (ks : List Cell) :
    ∀ (fuel : ℕ) (u v : List (Option ℚ)),
      (∀ k ∈ ks, k.1 < u.length ∧ k.2 < v.length) →
      u.length + v.length + 1 ≤ fuel + dcount u v →
      (uvLoop cost ks fuel u v).1.length = u.length ∧
      (uvLoop cost ks fuel u v).2.length = v.length ∧
      (((uvLoop cost ks fuel u v).1.any Option.isNone ||
        (uvLoop cost ks fuel u v).2.any Option.isNone) = true →
        ∀ k ∈ ks, noFire (uvLoop cost ks fuel u v).1 (uvLoop cost ks fuel u v).2 k = true) := by
  intro fuel
  induction fuel with
  | zero =>
    intro u v _ hbudget
    exfalso
    have h1 : u.countP Option.isSome ≤ u.length := List.countP_le_length _
    have h2 : v.countP Option.isSome ≤ v.length := List.countP_le_length _
    rw [dcount] at hbudget
    omega
  | succ fuel ih =>
    intro u v hrange hbudget
    rw [uvLoop]
    by_cases hguard : (u.any Option.isNone || v.any Option.isNone) = true
    · rw [if_pos hguard]
      by_cases hflag : (ks.foldl (uvStep cost) (u, v, false)).2.2 = true
      · simp only [hflag, if_true]
        have hlen := uvfold_lengths cost ks u v false
        have hinc := uvfold_dcount_fire cost ks u v hrange hflag
        have := ih (ks.foldl (uvStep cost) (u, v, false)).1
          (ks.foldl (uvStep cost) (u, v, false)).2.1
          (by rw [hlen.1, hlen.2]; exact hrange)
          (by rw [hlen.1, hlen.2]; omega)
        exact ⟨by rw [this.1, hlen.1], by rw [this.2.1, hlen.2], this.2.2⟩
      · simp only [hflag, if_false]
        rw [Bool.not_eq_true] at hflag
        obtain ⟨heq, hall⟩ := uvfold_stall cost ks u v hflag
        rw [heq]
        exact ⟨rfl, rfl, fun _ => hall⟩
    · rw [if_neg hguard]
      rw [Bool.not_eq_true] at hguard
      exact ⟨rfl, rfl, fun hcon => by rw [hguard] at hcon; cases hcon⟩

theorem uvLoop_mono (cost : List (List ℚ)) (ks : List Cell) :
    ∀ (fuel : ℕ) (u v : List (Option ℚ)) (i : ℕ),
      ((u.getD i none).isSome = true →
        ((uvLoop cost ks fuel u v).1.getD i none).isSome = true) ∧
      ((v.getD i none).isSome = true →
        ((uvLoop cost ks fuel u v).2.getD i none).isSome = true) := by
  intro fuel
  induction fuel with
  | zero => intro u v i; exact ⟨fun h => h, fun h => h⟩
  | succ fuel ih =>
    intro u v i
    rw [uvLoop]
    by_cases hguard : (u.any Option.isNone || v.any Option.isNone) = true
    · rw [if_pos hguard]
      by_cases hflag : (ks.foldl (uvStep cost) (u, v, false)).2.2 = true
      · simp only [hflag, if_true]
        have hmono := uvfold_mono cost ks u v false i
        have hrec := ih (ks.foldl (uvStep cost) (u, v, false)).1
          (ks.foldl (uvStep cost) (u, v, false)).2.1 i
        exact ⟨fun h => hrec.1 (hmono.1 h), fun h => hrec.2 (hmono.2 h)⟩
      · simp only [hflag, if_false]
        have hmono := uvfold_mono cost ks u v false i
        exact ⟨hmono.1, hmono.2⟩
    · rw [if_neg hguard]
      exact ⟨fun h => h, fun h => h⟩

theorem computeUV_lengths (cost : List (List ℚ)) (n m : ℕ) (a : Alloc)
    (hrange : ∀ k ∈ keys a, k.1 < n ∧ k.2 < m) :
    (computeUV cost n m a).1.length = n ∧ (computeUV cost n m a).2.length = m := by
  have := uvLoop_fix cost (keys a) (n + m + 1)
    ((List.replicate n (none : Option ℚ)).set 0 (some 0))
    (List.replicate m (none : Option ℚ))
    (by simpa using hrange)
    (by simp [dcount, List.length_set, List.length_replicate])
  rw [computeUV]
  constructor
  · rw [this.1, List.length_set, List.length_replicate]
  · rw [this.2.1, List.length_replicate]

/-- If `_compute_uv` returns incomplete potentials, it stalled at a
fixpoint: no basic cell has exactly one known endpoint. -/
theorem computeUV_stall (cost : List (List ℚ)) (n m : ℕ) (a : Alloc)
    (hrange : ∀ k ∈ keys a, k.1 < n ∧ k.2 < m)
    (hinc : ((computeUV cost n m a).1.any Option.isNone ||
      (computeUV cost n m a).2.any Option.isNone) = true) :
    ∀ k ∈ keys a, noFire (computeUV cost n m a).1 (computeUV cost n m a).2 k = true := by
  have := uvLoop_fix cost (keys a) (n + m + 1)
    ((List.replicate n (none : Option ℚ)).set 0 (some 0))
    (List.replicate m (none : Option ℚ))
    (by simpa using hrange)
    (by simp [dcount, List.length_set, List.length_replicate])
  exact this.2.2 hinc

/-- `u[0] = 0` is set before propagation and never forgotten. -/
theorem computeUV_u0 (cost : List (List ℚ)) (n m : ℕ) (a : Alloc) (hn : 1 ≤ n) :
    (((computeUV cost n m a).1.getD 0 none).isSome = true) := by
  rw [computeUV]
  refine (uvLoop_mono cost (keys a) (n + m + 1) _ _ 0).1 ?_
  rw [List.getD_eq_getElem?_getD, List.getElem?_set_self (by simpa using hn)]
  rfl

theorem hasKey_iff_mem_keys {a : Alloc} {c : Cell} :
    hasKey a c = true ↔ c ∈ keys a := by
  rw [hasKey, Option.isSome_iff_exists]
  constructor
  · rintro ⟨p, hp⟩
    have hmem := List.mem_of_find?_eq_some hp
    have hpc := List.find?_some hp
    simp only [decide_eq_true_eq] at hpc
    rw [keys, ← hpc]
    exact List.mem_map_of_mem _ hmem
  · intro hmem
    rw [keys] at hmem
    obtain ⟨p, hp, hpc⟩ := List.mem_map.1 hmem
    have : ∃ q, a.find? (fun q => decide (q.1 = c)) = some q := by
      rw [← Option.isSome_iff_exists]
      rw [List.find?_isSome]
      exact ⟨p, hp, by simp [hpc]⟩
    obtain ⟨q, hq⟩ := this
    exact ⟨q, hq⟩

/-- C5: if dual-potential propagation stalls with unknown potentials
remaining (the returned `u` or `v` still contains `None`), the
entering-cell scan necessarily reaches a non-basic cell with an unknown
endpoint and raises — the embedded `Except.error ()` standing for
python's `TypeError` on `None + float` — and `solve` therefore surfaces
the error instead of proceeding on incomplete potentials. -/
theorem C5_stall_raises (cost : List (List ℚ)) (n m : ℕ) (a : Alloc)
    (hn : 1 ≤ n) (hm : 1 ≤ m)
    (hrange : ∀ k ∈ keys a, k.1 < n ∧ k.2 < m)
    (hinc : ((computeUV cost n m a).1.any Option.isNone ||
      (computeUV cost n m a).2.any Option.isNone) = true) :
    selectEntering cost n m a (computeUV cost n m a).1 (computeUV cost n m a).2 =
      .error () ∧
    ∀ fuel, modiLoop cost n m (fuel + 1) a = (a, ExitKind.typeErr) := by
  obtain ⟨hulen, hvlen⟩ := computeUV_lengths cost n m a hrange
  have hstall := computeUV_stall cost n m a hrange hinc
  set u := (computeUV cost n m a).1 with hu_def
  set v := (computeUV cost n m a).2 with hv_def
  have hbad : ∃ c ∈ allCells n m, hasKey a c = false ∧ definedAt u v c = false := by
    have hnokey : ∀ i j, i < n → j < m →
        ((u.getD i none).isSome ∧ (v.getD j none) = none) ∨
        ((v.getD j none).isSome ∧ (u.getD i none) = none) →
        hasKey a (i, j) = false := by
      intro i j _ _ hpat
      by_contra hk
      rw [Bool.not_eq_false] at hk
      have hmem := hasKey_iff_mem_keys.1 hk
      have hnf := hstall _ hmem
      rw [noFire] at hnf
      rcases hpat with ⟨h1, h2⟩ | ⟨h1, h2⟩
      · rw [Option.isSome_iff_exists] at h1
        obtain ⟨x, hx⟩ := h1
        simp only [hx, h2] at hnf
        simp at hnf
      · rw [Option.isSome_iff_exists] at h1
        obtain ⟨y, hy⟩ := h1
        simp only [hy, h2] at hnf
        simp at hnf
    by_cases huany : u.any Option.isNone = true
    · obtain ⟨x, hxmem, hxnone⟩ := List.any_eq_true.1 huany
      obtain ⟨i, hi, hieq⟩ := List.mem_iff_getElem.1 hxmem
      have hin : i < n := by rwa [hulen] at hi
      have hunone : u.getD i none = none := by
        rw [List.getD_eq_getElem?_getD, List.getElem?_eq_getElem hi, hieq]
        rcases x with _ | x
        · rfl
        · simp at hxnone
      by_cases hvs : ∃ j, j < m ∧ (v.getD j none).isSome = true
      · obtain ⟨j, hj, hjs⟩ := hvs
        refine ⟨(i, j), mem_allCells.2 ⟨hin, hj⟩, ?_, ?_⟩
        · exact hnokey i j hin hj (Or.inr ⟨hjs, hunone⟩)
        · rw [definedAt, hunone]
          rfl
      · push_neg at hvs
        have hv0 : v.getD 0 none = none := by
          have := hvs 0 hm
          rcases hveq : v.getD 0 none with _ | y
          · rfl
          · rw [hveq] at this; simp at this
        have hu0 := computeUV_u0 cost n m a hn
        rw [← hu_def] at hu0
        refine ⟨(0, 0), mem_allCells.2 ⟨hn, hm⟩, ?_, ?_⟩
        · exact hnokey 0 0 hn hm (Or.inl ⟨hu0, hv0⟩)
        · rw [definedAt, hv0]
          simp
    · have hvany : v.any Option.isNone = true := by
        rcases Bool.or_eq_true_iff.1 hinc with h | h
        · exact absurd h huany
        · exact h
      obtain ⟨x, hxmem, hxnone⟩ := List.any_eq_true.1 hvany
      obtain ⟨j, hj, hjeq⟩ := List.mem_iff_getElem.1 hxmem
      have hjm : j < m := by rwa [hvlen] at hj
      have hvnone : v.getD j none = none := by
        rw [List.getD_eq_getElem?_getD, List.getElem?_eq_getElem hj, hjeq]
        rcases x with _ | x
        · rfl
        · simp at hxnone
      have hu0 : (u.getD 0 none).isSome = true := by
        rw [hu_def]
        exact computeUV_u0 cost n m a hn
      refine ⟨(0, j), mem_allCells.2 ⟨hn, hjm⟩, ?_, ?_⟩
      · exact hnokey 0 j hn hjm (Or.inl ⟨hu0, hvnone⟩)
      · rw [definedAt, hvnone]
        simp
  have hsel : selectEntering cost n m a u v = .error () := by
    rw [selectEntering]
    exact selfold_raises cost a u v (allCells n m) _ hbad
  refine ⟨hsel, ?_⟩
  intro fuel
  rw [modiLoop]
  rw [← hu_def, ← hv_def]
  rw [hsel]

/-- Witness for C5 at a concrete disconnected basis on a 2-by-2 cost
matrix: the basis `{(0,0), (1,1)}` leaves `u[1]`, `v[1]` underivable, and
the scan errors while solve exits with the TypeError kind. -/
theorem C5_stall_raises_witness :
    selectEntering [[1, 2], [3, 4]] 2 2 [((0, 0), 1), ((1, 1), 1)]
      (computeUV [[1, 2], [3, 4]] 2 2 [((0, 0), 1), ((1, 1), 1)]).1
      (computeUV [[1, 2], [3, 4]] 2 2 [((0, 0), 1), ((1, 1), 1)]).2 = .error () ∧
    modiLoop [[1, 2], [3, 4]] 2 2 1 [((0, 0), 1), ((1, 1), 1)] =
      ([((0, 0), 1), ((1, 1), 1)], ExitKind.typeErr) := by
  have h := C5_stall_raises [[1, 2], [3, 4]] 2 2 [((0, 0), 1), ((1, 1), 1)]
    (by decide) (by decide)
    (by with_unfolding_all decide)
    (by with_unfolding_all decide)
  exact ⟨h.1, h.2 0⟩

theorem modiLoop_optimal (cost : List (List ℚ)) (n m : ℕ) :
    ∀ (fuel : ℕ) (a a' : Alloc),
      modiLoop cost n m fuel a = (a', ExitKind.optimal) →
      ∃ r, selectEntering cost n m a'
        (computeUV cost n m a').1 (computeUV cost n m a').2 = .ok (r, none) := by
  intro fuel
  induction fuel with
  | zero =>
    intro a a' h
    rw [modiLoop] at h
    injection h with h1 h2
    cases h2
  | succ fuel ih =>
    intro a a' h
    rw [modiLoop] at h
    split at h
    · injection h with h1 h2
      cases h2
    · rename_i fst heq
      injection h with h1 h2
      subst h1
      exact ⟨fst, heq⟩
    · split at h
      · injection h with h1 h2
        cases h2
      · exact ih _ _ h

/-- C2: the engine transitions to OPTIMAL exactly when every non-basic
cell has opportunity value `u[i] + v[j] - cost[i][j] ≤ 0` (given the
potentials the scan needs are known); otherwise the entering cell it
returns is non-basic with strictly positive opportunity value, maximal
over all non-basic cells, and first-found among ties (every cell scanned
before it lies strictly below); and whenever `solve` exits through this
OPTIMAL condition the certificate holds for every non-basic cell of the
final basis under the potentials recomputed for it. -/
theorem C2_entering_selection (cost : List (List ℚ)) (n m : ℕ) (a : Alloc)
    (u v : List (Option ℚ)) :
    ((∀ c ∈ allCells n m, hasKey a c = false → definedAt u v c = true) →
      ((∃ r, selectEntering cost n m a u v = .ok (r, none)) ↔
        ∀ c ∈ allCells n m, hasKey a c = false → oppVal cost u v c ≤ 0)) ∧
    (∀ r e, selectEntering cost n m a u v = .ok (r, some e) →
      hasKey a e = false ∧ 0 < oppVal cost u v e ∧ oppVal cost u v e = r ∧
      (∀ c ∈ allCells n m, hasKey a c = false →
        oppVal cost u v c ≤ oppVal cost u v e) ∧
      ∃ l₁ l₂, allCells n m = l₁ ++ e :: l₂ ∧
        ∀ c ∈ l₁, hasKey a c = false → oppVal cost u v c < oppVal cost u v e) ∧
    (∀ fuel a₀ a', modiLoop cost n m fuel a₀ = (a', ExitKind.optimal) →
      ∀ c ∈ allCells n m, hasKey a' c = false →
        oppVal cost (computeUV cost n m a').1 (computeUV cost n m a').2 c ≤ 0) := by
  refine ⟨?_, ?_, ?_⟩
  · intro hdef
    constructor
    · rintro ⟨r, hsel⟩
      rw [selectEntering] at hsel
      obtain ⟨-, hall⟩ := selfold_none cost a u v (allCells n m) 0 r hsel
      exact fun c hc hk => (hall c hc hk).2
    · intro hcert
      refine ⟨0, ?_⟩
      rw [selectEntering]
      exact selfold_keep cost a u v (allCells n m) 0 none
        (fun c hc hk => ⟨hdef c hc hk, hcert c hc hk⟩)
  · intro r e hsel
    rw [selectEntering] at hsel
    rcases selfold_some cost a u v (allCells n m) 0 none r e hsel with
      ⟨h1, -, -⟩ | ⟨h1, h2, h3, h4, l₁, l₂, h5, h6, h7⟩
    · cases h1
    · refine ⟨h2, by rw [h4]; exact h1, h4, ?_, l₁, l₂, h5, ?_⟩
      · intro c hc hk
        rw [h5] at hc
        rcases List.mem_append.1 hc with hc1 | hc2
        · rw [h4]
          exact le_of_lt (h6 c hc1 hk).2
        · rcases List.mem_cons.1 hc2 with rfl | hc3
          · exact le_refl _
          · rw [h4]
            exact (h7 c hc3 hk).2
      · intro c hc hk
        rw [h4]
        exact (h6 c hc hk).2
  · intro fuel a₀ a' hrun c hc hk
    obtain ⟨r, hsel⟩ := modiLoop_optimal cost n m fuel a₀ a' hrun
    rw [selectEntering] at hsel
    obtain ⟨-, hall⟩ := selfold_none cost a' _ _ (allCells n m) 0 r hsel
    exact (hall c hc hk).2

/-- Witness for C2 on the 2-by-2 instance: after solve exits OPTIMAL the
certificate holds at the non-basic cell (1,0). -/
theorem C2_entering_selection_witness :
    oppVal [[1, 2], [3, 4]]
      (computeUV [[1, 2], [3, 4]] 2 2 [((0, 0), 5), ((1, 1), 5), ((0, 1), 0)]).1
      (computeUV [[1, 2], [3, 4]] 2 2 [((0, 0), 5), ((1, 1), 5), ((0, 1), 0)]).2
      (1, 0) ≤ 0 := by
  have h := C2_entering_selection [[1, 2], [3, 4]] 2 2
    [((0, 0), 5), ((1, 1), 5), ((0, 1), 0)]
    (computeUV [[1, 2], [3, 4]] 2 2 [((0, 0), 5), ((1, 1), 5), ((0, 1), 0)]).1
    (computeUV [[1, 2], [3, 4]] 2 2 [((0, 0), 5), ((1, 1), 5), ((0, 1), 0)]).2
  exact h.2.2 100 (modiInit 2 2 [((0, 0), 5), ((1, 1), 5)])
    [((0, 0), 5), ((1, 1), 5), ((0, 1), 0)]
    (by with_unfolding_all decide) (1, 0) (by decide)
    (by with_unfolding_all decide)


/-- Bool-valued alternating-chain predicate: walking from `a` through the
cells of `l`, consecutive cells share a row when the current direction is
`true` and a column when it is `false`, the direction flipping at every
step. -/
def chainB : Bool → Cell → List Cell → Bool
  | _, _, [] => true
  | d, a, y :: ys => share d a y && chainB (!d) y ys

/-- Direction after `k` flips. -/
def flipN (d : Bool) (k : ℕ) : Bool := if k % 2 = 0 then d else !d

theorem flipN_succ (d : Bool) (k : ℕ) : flipN d (k + 1) = flipN (!d) k := by
  rw [flipN, flipN]
  rcases Nat.mod_two_eq_zero_or_one k with h | h
  · rw [if_pos h, if_neg (by omega : ¬(k + 1) % 2 = 0)]
  · rw [if_neg (by omega : ¬k % 2 = 0), if_pos (by omega : (k + 1) % 2 = 0)]
    simp

theorem flipN_not (d : Bool) (k : ℕ) : flipN (!d) k = !(flipN d k) := by
  rw [flipN, flipN]
  rcases Nat.mod_two_eq_zero_or_one k with h | h
  · rw [if_pos h, if_pos h]
  · rw [if_neg (by omega : ¬k % 2 = 0), if_neg (by omega : ¬k % 2 = 0)]

theorem share_true (a b : Cell) : share true a b = decide (a.1 = b.1) := rfl

theorem share_false (a b : Cell) : share false a b = decide (a.2 = b.2) := rfl

theorem chainB_snoc (c : Cell) :
    ∀ (l : List Cell) (d : Bool) (a curr : Cell),
      (a :: l).getLast? = some curr →
      chainB d a (l ++ [c]) =
        (chainB d a l && share (flipN d l.length) curr c) := by
  intro l
  induction l with
  | nil =>
    intro d a curr hlast
    simp only [List.getLast?_singleton, Option.some_inj] at hlast
    subst hlast
    simp [chainB, flipN]
  | cons y ys ih =>
    intro d a curr hlast
    have hlast2 : (y :: ys).getLast? = some curr := by
      rw [← hlast]
      rw [List.getLast?_cons_cons]
    rw [List.cons_append, chainB, chainB, ih (!d) y curr hlast2,
      List.length_cons, flipN_succ]
    rw [Bool.and_assoc]

theorem dropLast_head? {α : Type} (l : List α) (h : 2 ≤ l.length) :
    l.dropLast.head? = l.head? := by
  match l, h with
  | a :: b :: rest, _ => rfl

/-- Soundness of the loop search: any returned loop starts at the
entering cell, has pairwise distinct cells all drawn from the searched
basis, alternates row/column shares including the closing edge back to
the entering cell, and has at least four cells. -/
theorem getPath_sound :
    ∀ (fuel : ℕ) (basis : List Cell) (start curr : Cell) (path : List Cell)
      (sr : Bool) (res : List Cell),
      getPath fuel basis start curr path sr = some res →
      path ≠ [] → path.head? = some start → path.getLast? = some curr →
      chainB true start path.tail = true →
      (sr = flipN true (path.length - 1)) →
      path.dropLast.Nodup →
      (curr ∈ path.dropLast → curr = start ∧ 3 < path.length) →
      (∀ c ∈ path, c ∈ basis) →
      res.head? = some start ∧ res.Nodup ∧
        chainB true start (res.tail ++ [start]) = true ∧
        (∀ c ∈ res, c ∈ basis) ∧ 4 ≤ res.length := by
  intro fuel
  induction fuel with
  | zero =>
    intro basis start curr path sr res h
    rw [getPath] at h
    cases h
  | succ fuel ih =>
    intro basis start curr path sr res h hne hhead hlast hchain hsr hnodup hlastmem hmem
    rw [getPath] at h
    by_cases hacc : 3 < path.length ∧ curr = start
    · rw [if_pos hacc] at h
      injection h with hres
      subst hres
      obtain ⟨hlen3, hcurr⟩ := hacc
      rw [hcurr] at hlast
      have hpath_eq : path.dropLast ++ [start] = path :=
        List.dropLast_append_getLast? start hlast
      have hlen : path.dropLast.length = path.length - 1 := by
        rw [List.length_dropLast]
      have hheadd : path.dropLast.head? = some start := by
        rw [dropLast_head? path (by omega), hhead]
      have hlen4 : 3 ≤ path.dropLast.length := by omega
      refine ⟨hheadd, hnodup, ?_, ?_, ?_⟩
      · rcases hd : path.dropLast with _ | ⟨p0, ptail⟩
        · rw [hd] at hlen4; simp at hlen4
        · have hp0 : p0 = start := by
            rw [hd] at hheadd
            simpa using hheadd
          rw [hp0] at hd
          have htl : path.tail = ptail ++ [start] := by
            rw [← hpath_eq, hd]
            rfl
          rw [List.tail_cons, ← htl]
          exact hchain
      · intro c hc
        exact hmem c (List.dropLast_subset path hc)
      · rcases Nat.lt_or_ge path.dropLast.length 4 with hl4 | hl4
        · exfalso
          have hlen3e : path.dropLast.length = 3 := by omega
          rcases hd : path.dropLast with _ | ⟨p0, rest⟩
          · rw [hd] at hlen3e; simp at hlen3e
          · rcases rest with _ | ⟨p1, rest2⟩
            · rw [hd] at hlen3e; simp at hlen3e
            · rcases rest2 with _ | ⟨p2, rest3⟩
              · rw [hd] at hlen3e; simp at hlen3e
              · rcases rest3 with _ | ⟨p3, rest4⟩
                · have hp0 : p0 = start := by
                    rw [hd] at hheadd; simpa using hheadd
                  rw [hp0] at hd
                  have htl : path.tail = [p1, p2] ++ [start] := by
                    rw [← hpath_eq, hd]
                    rfl
                  rw [htl] at hchain
                  simp only [List.cons_append, List.nil_append, chainB,
                    Bool.not_true, Bool.not_false, share_true, share_false,
                    Bool.and_eq_true, decide_eq_true_eq, Bool.and_true] at hchain
                  obtain ⟨h01, h12, h2c⟩ := hchain
                  have hp2 : p2 = p1 := by
                    refine Prod.ext ?_ ?_
                    · rw [h2c, h01]
                    · rw [← h12]
                  rw [hd] at hnodup
                  have hne12 : p1 ∉ [p2] := (List.nodup_cons.1 (List.nodup_cons.1 hnodup).2).1
                  exact hne12 (by rw [hp2]; exact List.mem_singleton.2 rfl)
                · rw [hd] at hlen3e
                  simp at hlen3e
        · exact hl4
    · rw [if_neg hacc] at h
      obtain ⟨l₁, c, l₂, hdec, hfc, -⟩ := List.findSome?_eq_some_iff.1 h
      have hcmemfilter : c ∈ (basis.filter (fun c => share sr curr c && decide (c ≠ curr))) := by
        rw [hdec]
        exact List.mem_append.2 (Or.inr (List.mem_cons_self c l₂))
      obtain ⟨hcbasis, hcprop⟩ := List.mem_filter.1 hcmemfilter
      rw [Bool.and_eq_true, decide_eq_true_eq] at hcprop
      obtain ⟨hcshare, hcne⟩ := hcprop
      by_cases hcond : c ∉ path ∨ (c = start ∧ 2 < path.length)
      · rw [if_pos hcond] at hfc
        have hcurrnotin : curr ∉ path.dropLast := by
          intro hcon
          obtain ⟨hcs, hl3⟩ := hlastmem hcon
          exact hacc ⟨hl3, hcs⟩
        have hpathnodup : path.Nodup := by
          rw [← List.dropLast_append_getLast? curr hlast, List.nodup_append]
          refine ⟨hnodup, List.nodup_singleton curr, ?_⟩
          intro x hx hx2
          rw [List.mem_singleton] at hx2
          subst hx2
          exact hcurrnotin hx
        rcases path with _ | ⟨p0, ptail⟩
        · exact absurd rfl hne
        · have hp0 : start = p0 := by
            have h0 := hhead
            simp only [List.head?_cons, Option.some_inj] at h0
            exact h0.symm
          subst hp0
          refine ih basis start c ((start :: ptail) ++ [c]) (!sr) res hfc (by simp)
            (by rw [List.cons_append]; rfl) (by rw [List.getLast?_concat])
            ?_ ?_ ?_ ?_ ?_
          · rw [List.cons_append, List.tail_cons,
              chainB_snoc c ptail true start curr hlast, Bool.and_eq_true]
            refine ⟨hchain, ?_⟩
            have hlp : ptail.length = (start :: ptail).length - 1 := rfl
            rw [hlp, ← hsr]
            exact hcshare
          · rw [List.length_append, List.length_cons, List.length_singleton]
            have he : ptail.length + 1 + 1 - 1 = ptail.length + 1 := rfl
            rw [he, flipN_succ, flipN_not]
            have hlp : ptail.length = (start :: ptail).length - 1 := rfl
            rw [← hlp] at hsr
            rw [← hsr]
          · rw [List.dropLast_concat]
            exact hpathnodup
          · intro hcmem
            rw [List.dropLast_concat] at hcmem
            rcases hcond with hnotin | ⟨hcs, hl2⟩
            · exact absurd hcmem hnotin
            · refine ⟨hcs, ?_⟩
              rw [List.length_append, List.length_cons, List.length_singleton]
              simp only [List.length_cons] at hl2
              omega
          · intro x hx
            rcases List.mem_append.1 hx with hx1 | hx2
            · exact hmem x hx1
            · rw [List.mem_singleton] at hx2
              subst hx2
              exact hcbasis
      · rw [if_neg hcond] at hfc
        cases hfc

theorem findLoop_sound (a : Alloc) (start : Cell) (res : List Cell)
    (h : findLoop a start = some res) :
    res.head? = some start ∧ res.Nodup ∧
      chainB true start (res.tail ++ [start]) = true ∧
      (∀ c ∈ res, c = start ∨ c ∈ keys a) ∧ 4 ≤ res.length := by
  rw [findLoop] at h
  have hs := getPath_sound (keys a ++ [start]).length.succ.succ.succ
    (keys a ++ [start]) start start [start] true res h (by simp) rfl rfl rfl
    (by rw [flipN]; rfl) (by simp) (by simp)
    (by
      intro c hc
      rw [List.mem_singleton] at hc
      subst hc
      exact List.mem_append.2 (Or.inr (List.mem_singleton.2 rfl)))
  obtain ⟨h1, h2, h3, h4, h5⟩ := hs
  refine ⟨h1, h2, h3, ?_, h5⟩
  intro c hc
  rcases List.mem_append.1 (h4 c hc) with hk | hk
  · exact Or.inr hk
  · exact Or.inl (List.mem_singleton.1 hk)

/-- C9: counterexample — the loop finder does not return loops of odd
length: on the basis {(0,0),(0,1),(1,1)} with entering cell (1,0) it
returns the four-cell loop [(1,0),(1,1),(0,1),(0,0)], whose length 4 is
even, refuting "every loop ... has odd length >= 3". -/
theorem C9_counterexample :
    findLoop [(((0 : ℕ), (0 : ℕ)), (1 : ℚ)), ((0, 1), 2), ((1, 1), 3)] (1, 0)
        = some [(1, 0), (1, 1), (0, 1), (0, 0)] ∧
      ¬ (([((1 : ℕ), (0 : ℕ)), (1, 1), (0, 1), (0, 0)] : List Cell).length % 2 = 1
          ∧ 3 ≤ ([((1 : ℕ), (0 : ℕ)), (1, 1), (0, 1), (0, 0)] : List Cell).length
          ∧ Odd ([((1 : ℕ), (0 : ℕ)), (1, 1), (0, 1), (0, 0)] : List Cell).length) := by
  constructor
  · with_unfolding_all decide
  · intro hcon
    exact absurd hcon.1 (by decide)

/-- C9 (amended): every loop the loop finder returns starts at the
entering cell, has pairwise distinct cells, has at least four cells (not
odd length >= 3: the minimum is four and the parity is even in the
four-cell case), alternates same-row and same-column moves including the
closing move back to the entering cell, is accepted only once the path
has returned to the entering cell with more than three cells on it, and
every cell other than the entering cell belongs to the current basis. -/
theorem C9_amended (a : Alloc) (start : Cell) (res : List Cell)
    (h : findLoop a start = some res) :
    res.head? = some start ∧ res.Nodup ∧
      chainB true start (res.tail ++ [start]) = true ∧
      (∀ c ∈ res, c = start ∨ c ∈ keys a) ∧ 4 ≤ res.length :=
  findLoop_sound a start res h

theorem C9_amended_witness :
    ([((1 : ℕ), (0 : ℕ)), (1, 1), (0, 1), (0, 0)] : List Cell).head? = some (1, 0) ∧
      ([((1 : ℕ), (0 : ℕ)), (1, 1), (0, 1), (0, 0)] : List Cell).Nodup ∧
      chainB true (1, 0)
        (([((1 : ℕ), (0 : ℕ)), (1, 1), (0, 1), (0, 0)] : List Cell).tail ++ [(1, 0)]) = true ∧
      (∀ c ∈ ([((1 : ℕ), (0 : ℕ)), (1, 1), (0, 1), (0, 0)] : List Cell),
        c = (1, 0) ∨ c ∈ keys [(((0 : ℕ), (0 : ℕ)), (1 : ℚ)), ((0, 1), 2), ((1, 1), 3)]) ∧
      4 ≤ ([((1 : ℕ), (0 : ℕ)), (1, 1), (0, 1), (0, 0)] : List Cell).length :=
  C9_amended [(((0 : ℕ), (0 : ℕ)), (1 : ℚ)), ((0, 1), 2), ((1, 1), 3)] (1, 0)
    [(1, 0), (1, 1), (0, 1), (0, 0)] (by with_unfolding_all decide)

/-- `np.append(row_penalty, col_penalty)` of `VogelsApproximationMethod.solve`. -/
def penaltyList (t : TTable) : List ℚ :=
  t.vals.map penalty ++ (colsOf t.vals).map penalty

def maxPen (t : TTable) : ℚ := listMax (penaltyList t)

/-- `np.where(P == max(P))[0]`: the lines tied at the maximum penalty. -/
def tiedLines (t : TTable) : List ℕ :=
  (List.range (penaltyList t).length).filter
    (fun i => decide ((penaltyList t).getD i 0 = maxPen t))

/-- The cost line (row or column) scanned for line index `i` of the
appended penalty vector. -/
def lineOf (t : TTable) (i : ℕ) : List ℚ :=
  if i < t.vals.length then t.vals.getD i []
  else (colsOf t.vals).getD (i - t.vals.length) []

/-- The row/column pair a tied line index and an argmin position denote. -/
def rcOf (n i j : ℕ) : ℕ × ℕ := if i < n then (i, j) else (j, i - n)

/-- `min([supply[r], demand[c]])`: the feasible amount at a cell. -/
def amtOf (t : TTable) (rc : ℕ × ℕ) : ℚ :=
  min (t.rows.getD rc.1 ("", 0)).2 (t.cols.getD rc.2 ("", 0)).2

/-- `np.where(L == min(L))[0]`: positions of the minimum cost in a line. -/
def argmins (L : List ℚ) : List ℕ :=
  (List.range L.length).filter (fun j => decide (L.getD j 0 = listMin L))

/-- The candidate cells of one VAM selection step, in scan order: for
every line tied at the maximum penalty, every cell of that line tied at
its minimum cost. -/
def vamCands (t : TTable) : List (ℕ × ℕ) :=
  (tiedLines t).flatMap (fun i => (argmins (lineOf t i)).map (rcOf t.vals.length i))

/-- The `max_alloc` update of the selection scan: keep the first
candidate whose feasible amount is strictly largest. -/
def pickMax (f : ℕ × ℕ → ℚ) (st : Option ℚ × ℕ × ℕ) (c : ℕ × ℕ) : Option ℚ × ℕ × ℕ :=
  match st.1 with
  | none => (some (f c), c)
  | some b => if b < f c then (some (f c), c) else st

theorem foldl_flatMap {α β γ : Type} (g : β → List α) (f : γ → α → γ) :
    ∀ (l : List β) (init : γ),
      (l.flatMap g).foldl f init = l.foldl (fun st i => (g i).foldl f st) init := by
  intro l
  induction l with
  | nil => intro init; rfl
  | cons x xs ih =>
    intro init
    rw [List.flatMap_cons, List.foldl_append, List.foldl_cons, ih]

theorem vamSelect_eq (t : TTable) :
    vamSelect t = ((vamCands t).foldl (pickMax (amtOf t)) (none, 0, 0)).2 := by
  rw [vamCands, foldl_flatMap]
  simp only [List.foldl_map]
  rfl

theorem foldl_max_mem (xs : List ℚ) (x : ℚ) :
    xs.foldl max x = x ∨ xs.foldl max x ∈ xs := by
  induction xs generalizing x with
  | nil => simp
  | cons y ys ih =>
    rcases ih (max x y) with h | h
    · rcases max_cases x y with ⟨he, _⟩ | ⟨he, _⟩
      · exact Or.inl (by rw [List.foldl_cons, h, he])
      · exact Or.inr (by rw [List.foldl_cons, h, he]; exact List.mem_cons_self y ys)
    · exact Or.inr (List.mem_cons_of_mem y h)

theorem listMax_mem {l : List ℚ} (h : l ≠ []) : listMax l ∈ l := by
  cases l with
  | nil => exact absurd rfl h
  | cons x xs =>
    rcases foldl_max_mem xs x with he | he
    · simp only [listMax, he]
      exact List.mem_cons_self x xs
    · simp only [listMax]
      exact List.mem_cons_of_mem x he

theorem listMin_perm {l1 l2 : List ℚ} (h : l1.Perm l2) (hne : l1 ≠ []) :
    listMin l1 = listMin l2 := by
  have hne2 : l2 ≠ [] := by
    intro hc
    subst hc
    exact hne h.eq_nil
  apply le_antisymm
  · exact listMin_le (h.mem_iff.2 (listMin_mem hne2))
  · exact listMin_le (h.mem_iff.1 (listMin_mem hne))

theorem qle_trans (a b c : ℚ) (hab : qle a b = true) (hbc : qle b c = true) :
    qle a c = true := by
  rw [qle, decide_eq_true_eq] at *
  exact le_trans hab hbc

theorem qle_total (a b : ℚ) : (qle a b || qle b a) = true := by
  rw [qle, qle]
  rcases le_total a b with h | h
  · have hd : decide (a ≤ b) = true := decide_eq_true h
    rw [hd]
    rfl
  · have hd : decide (b ≤ a) = true := decide_eq_true h
    rw [hd]
    simp

/-- `VogelsApproximationMethod.penalty` on one nonempty line equals the
absolute gap between the smallest cost and the smallest remaining cost
after removing one copy of it (the sentinel 0 of the one-cost line is
the `listMin` of the empty remainder). -/
theorem penalty_eq (l : List ℚ) (hne : l ≠ []) :
    penalty l = |listMin l - listMin (l.erase (listMin l))| := by
  have hperm : (l.mergeSort qle).Perm l := List.mergeSort_perm l qle
  have hsorted : (l.mergeSort qle).Pairwise (fun a b => qle a b = true) :=
    List.sorted_mergeSort qle_trans qle_total l
  rcases hs : l.mergeSort qle with _ | ⟨x, rest⟩
  · rw [hs] at hperm
    exact absurd hperm.symm.eq_nil hne
  · rcases rest with _ | ⟨y, rest2⟩
    · rw [hs] at hperm
      have hm : x ∈ l := hperm.mem_iff.1 (List.mem_singleton.2 rfl)
      have hlen : l.length = 1 := by rw [← hperm.length_eq]; rfl
      rcases l with _ | ⟨a, tl⟩
      · cases hm
      · rcases tl with _ | ⟨b, tl2⟩
        · have ha : a = x := (List.mem_singleton.1 hm).symm
          subst ha
          rw [penalty, hs]
          simp [listMin, List.erase_cons_head]
        · simp at hlen
    · rw [hs] at hperm hsorted
      simp only [qle, decide_eq_true_eq] at hsorted
      rw [List.pairwise_cons] at hsorted
      obtain ⟨hxle, hsorted2⟩ := hsorted
      rw [List.pairwise_cons] at hsorted2
      obtain ⟨hyle, -⟩ := hsorted2
      have hminl : listMin l = x := by
        apply le_antisymm
        · exact listMin_le (hperm.mem_iff.1 (List.mem_cons_self x (y :: rest2)))
        · have hm := listMin_mem hne
          rcases List.mem_cons.1 (hperm.mem_iff.2 hm) with he | h2
          · rw [he]
          · exact hxle (listMin l) h2
      have herase : (l.erase x).Perm (y :: rest2) := by
        have := (hperm.symm.erase x)
        rw [List.erase_cons_head] at this
        exact this
      have hney : (y :: rest2 : List ℚ) ≠ [] := by simp
      have hne2 : l.erase x ≠ [] := by
        intro hc
        rw [hc] at herase
        exact hney herase.symm.eq_nil
      have hmin2 : listMin (l.erase x) = y := by
        rw [listMin_perm herase hne2]
        apply le_antisymm
        · exact listMin_le (List.mem_cons_self y rest2)
        · have hm := listMin_mem hney
          rcases List.mem_cons.1 hm with he | h2
          · rw [he]
          · exact hyle (listMin (y :: rest2)) h2
      rw [penalty, hs, hminl, hmin2]

theorem pickMax_go (f : ℕ × ℕ → ℚ) :
    ∀ (l : List (ℕ × ℕ)) (b : ℚ) (x : ℕ × ℕ),
      ∃ b2 y, l.foldl (pickMax f) (some b, x) = (some b2, y) ∧ b ≤ b2 ∧
        (∀ c ∈ l, f c ≤ b2) ∧
        ((y = x ∧ b2 = b) ∨
          ∃ k, ∃ hk : k < l.length, l.get ⟨k, hk⟩ = y ∧ f y = b2 ∧ b < b2 ∧
            ∀ j, ∀ hj : j < l.length, j < k → f (l.get ⟨j, hj⟩) < b2) := by
  intro l
  induction l with
  | nil =>
    intro b x
    refine ⟨b, x, rfl, le_refl b, ?_, Or.inl ⟨rfl, rfl⟩⟩
    intro c hc
    cases hc
  | cons c rest ih =>
    intro b x
    rw [List.foldl_cons]
    by_cases hbc : b < f c
    · rw [show pickMax f (some b, x) c = (some (f c), c) by rw [pickMax]; simp [hbc]]
      obtain ⟨b2, y, heq, hle, hall, hcases⟩ := ih (f c) c
      refine ⟨b2, y, heq, le_of_lt (lt_of_lt_of_le hbc hle), ?_, ?_⟩
      · intro d hd
        rcases List.mem_cons.1 hd with he | h2
        · rw [he]; exact hle
        · exact hall d h2
      · rcases hcases with ⟨hy, hb2⟩ | ⟨k, hk, hget, hfy, hlt, hearly⟩
        · refine Or.inr ⟨0, by simp, by rw [hy]; rfl, by rw [hy, hb2], by rw [hb2]; exact hbc, ?_⟩
          intro j hj hj0
          omega
        · refine Or.inr ⟨k + 1, by simpa using hk, hget, hfy,
            lt_trans hbc hlt, ?_⟩
          intro j hj hjk
          rcases j with _ | j2
          · exact lt_of_le_of_lt (le_refl (f c)) hlt
          · exact hearly j2 (by simpa using hj) (by omega)
    · rw [show pickMax f (some b, x) c = (some b, x) by rw [pickMax]; simp [hbc]]
      obtain ⟨b2, y, heq, hle, hall, hcases⟩ := ih b x
      refine ⟨b2, y, heq, hle, ?_, ?_⟩
      · intro d hd
        rcases List.mem_cons.1 hd with he | h2
        · rw [he]; exact le_trans (le_of_not_lt hbc) hle
        · exact hall d h2
      · rcases hcases with hl | ⟨k, hk, hget, hfy, hlt, hearly⟩
        · exact Or.inl hl
        · refine Or.inr ⟨k + 1, by simpa using hk, hget, hfy, hlt, ?_⟩
          intro j hj hjk
          rcases j with _ | j2
          · exact lt_of_le_of_lt (le_of_not_lt hbc) hlt
          · exact hearly j2 (by simpa using hj) (by omega)

/-- The selection scan keeps the first candidate attaining the maximum
feasible amount: the result is a candidate, every earlier candidate has
a strictly smaller amount, and no candidate has a larger one. -/
theorem pickMax_first (f : ℕ × ℕ → ℚ) (l : List (ℕ × ℕ)) (x0 : ℕ × ℕ) (hne : l ≠ []) :
    ∃ k, ∃ hk : k < l.length,
      l.get ⟨k, hk⟩ = (l.foldl (pickMax f) (none, x0)).2 ∧
      (∀ j, ∀ hj : j < l.length, j < k →
        f (l.get ⟨j, hj⟩) < f (l.foldl (pickMax f) (none, x0)).2) ∧
      ∀ c ∈ l, f c ≤ f (l.foldl (pickMax f) (none, x0)).2 := by
  rcases l with _ | ⟨c, rest⟩
  · exact absurd rfl hne
  · rw [List.foldl_cons, show pickMax f (none, x0) c = (some (f c), c) from rfl]
    obtain ⟨b2, y, heq, hle, hall, hcases⟩ := pickMax_go f rest (f c) c
    rw [heq]
    have hfy : f y = b2 := by
      rcases hcases with ⟨hy, hb2⟩ | ⟨_, _, _, hfy, _, _⟩
      · rw [hy, hb2]
      · exact hfy
    rcases hcases with ⟨hy, hb2⟩ | ⟨k, hk, hget, hfy2, hlt, hearly⟩
    · refine ⟨0, by simp, by rw [hy]; rfl, by intro j hj hj0; omega, ?_⟩
      intro d hd
      rcases List.mem_cons.1 hd with he | h2
      · rw [he, hfy]
        exact hle
      · rw [hfy]
        exact hall d h2
    · refine ⟨k + 1, by simpa using hk, hget, ?_, ?_⟩
      · intro j hj hjk
        rcases j with _ | j2
        · have h0 : (c :: rest).get ⟨0, hj⟩ = c := rfl
          rw [h0, hfy]
          exact hlt
        · rw [hfy]
          exact hearly j2 (by simpa using hj) (by omega)
      · intro d hd
        rw [hfy]
        rcases List.mem_cons.1 hd with he | h2
        · rw [he]
          exact le_of_lt hlt
        · exact hall d h2


theorem getD_mem_of_lt_list {l : List (List ℚ)} {i : ℕ} (hi : i < l.length) :
    l.getD i [] ∈ l := by
  rw [List.getD_eq_getElem?_getD, List.getElem?_eq_getElem hi]
  exact List.getElem_mem hi

theorem getD_mem_of_lt {l : List ℚ} {i : ℕ} (hi : i < l.length) :
    l.getD i 0 ∈ l := by
  rw [List.getD_eq_getElem?_getD, List.getElem?_eq_getElem hi]
  exact List.getElem_mem hi

theorem argmins_ne_nil {L : List ℚ} (h : L ≠ []) : argmins L ≠ [] := by
  have hm := listMin_mem h
  obtain ⟨j, hj, hget⟩ := List.mem_iff_getElem.1 hm
  have hgd : L.getD j 0 = listMin L := by
    rw [List.getD_eq_getElem?_getD, List.getElem?_eq_getElem hj, hget]
    rfl
  apply List.ne_nil_of_mem (a := j)
  rw [argmins, List.mem_filter, List.mem_range]
  exact ⟨hj, decide_eq_true hgd⟩

theorem lineOf_ne_nil (t : TTable) (hvne : t.vals ≠ [])
    (hrow : ∀ r ∈ t.vals, r ≠ []) (i : ℕ) (hi : i < (penaltyList t).length) :
    lineOf t i ≠ [] := by
  rw [lineOf]
  by_cases hin : i < t.vals.length
  · rw [if_pos hin]
    have hg : t.vals.getD i [] = t.vals[i] := by
      rw [List.getD_eq_getElem?_getD, List.getElem?_eq_getElem hin]
      rfl
    rw [hg]
    exact hrow _ (List.getElem_mem hin)
  · rw [if_neg hin]
    have hic : i - t.vals.length < (colsOf t.vals).length := by
      rw [penaltyList, List.length_append, List.length_map, List.length_map] at hi
      omega
    rw [colsOf] at hic ⊢
    rw [List.length_map, List.length_range] at hic
    rw [List.getD_eq_getElem?_getD, List.getElem?_map, List.getElem?_range hic]
    simp only [Option.map_some', Option.getD_some]
    intro hcon
    rw [List.map_eq_nil_iff] at hcon
    exact hvne hcon

theorem maxPen_getD_le (t : TTable) (i : ℕ) (hi : i < (penaltyList t).length) :
    (penaltyList t).getD i 0 ≤ maxPen t := by
  rw [maxPen]
  exact le_listMax (getD_mem_of_lt hi)

theorem tiedLines_mem_iff (t : TTable) (i : ℕ) (hi : i < (penaltyList t).length) :
    i ∈ tiedLines t ↔ (penaltyList t).getD i 0 = maxPen t := by
  rw [tiedLines, List.mem_filter, List.mem_range]
  constructor
  · intro h
    exact of_decide_eq_true h.2
  · intro h
    exact ⟨hi, decide_eq_true h⟩

theorem vamCands_ne_nil (t : TTable) (hvne : t.vals ≠ [])
    (hrow : ∀ r ∈ t.vals, r ≠ []) : vamCands t ≠ [] := by
  have hPne : penaltyList t ≠ [] := by
    rw [penaltyList]
    intro hcon
    rw [List.append_eq_nil, List.map_eq_nil_iff] at hcon
    exact hvne hcon.1
  have hmem := listMax_mem hPne
  obtain ⟨i0, hi0, hget⟩ := List.mem_iff_getElem.1 hmem
  have hgd : (penaltyList t).getD i0 0 = maxPen t := by
    rw [List.getD_eq_getElem?_getD, List.getElem?_eq_getElem hi0, hget]
    rfl
  have htied : i0 ∈ tiedLines t := (tiedLines_mem_iff t i0 hi0).2 hgd
  have hline := lineOf_ne_nil t hvne hrow i0 hi0
  have hargs := argmins_ne_nil hline
  rcases hj : argmins (lineOf t i0) with _ | ⟨j0, js⟩
  · exact absurd hj hargs
  apply List.ne_nil_of_mem (a := rcOf t.vals.length i0 j0)
  rw [vamCands, List.mem_flatMap]
  refine ⟨i0, htied, List.mem_map.2 ⟨j0, ?_, rfl⟩⟩
  rw [hj]
  exact List.mem_cons_self j0 js

/-- C8: at every VAM step the penalty of each active row and column is
the gap between its two smallest active costs (against a sentinel 0 when
only one cost remains); the tied-line list holds exactly the lines of
maximum penalty; every selection candidate is a minimum-cost cell of a
tied line; the selected cell is the first candidate attaining the
maximum feasible amount min(supply, demand); and the step allocates at
the selected cell. -/
theorem C8_vam_selection (t : TTable)
    (hvne : t.vals ≠ []) (hrow : ∀ r ∈ t.vals, r ≠ []) :
    (∀ l : List ℚ, l ≠ [] → penalty l = |listMin l - listMin (l.erase (listMin l))|) ∧
    (∀ i, i < (penaltyList t).length →
      (penaltyList t).getD i 0 ≤ maxPen t ∧
        (i ∈ tiedLines t ↔ (penaltyList t).getD i 0 = maxPen t)) ∧
    (∀ rc ∈ vamCands t, ∃ i, i ∈ tiedLines t ∧ ∃ j, j < (lineOf t i).length ∧
      (lineOf t i).getD j 0 = listMin (lineOf t i) ∧ rc = rcOf t.vals.length i j) ∧
    vamCands t ≠ [] ∧
    (∃ k, ∃ hk : k < (vamCands t).length,
      (vamCands t).get ⟨k, hk⟩ = vamSelect t ∧
      (∀ j, ∀ hj : j < (vamCands t).length, j < k →
        amtOf t ((vamCands t).get ⟨j, hj⟩) < amtOf t (vamSelect t)) ∧
      (∀ c ∈ vamCands t, amtOf t c ≤ amtOf t (vamSelect t))) ∧
    vamStep t = allocateStep t (vamSelect t).1 (vamSelect t).2 := by
  have hcne := vamCands_ne_nil t hvne hrow
  refine ⟨fun l hl => penalty_eq l hl,
    fun i hi => ⟨maxPen_getD_le t i hi, tiedLines_mem_iff t i hi⟩, ?_, hcne, ?_, rfl⟩
  · intro rc hrc
    rw [vamCands, List.mem_flatMap] at hrc
    obtain ⟨i, hitied, hmap⟩ := hrc
    obtain ⟨j, hjmem, hrceq⟩ := List.mem_map.1 hmap
    rw [argmins, List.mem_filter, List.mem_range] at hjmem
    exact ⟨i, hitied, j, hjmem.1, of_decide_eq_true hjmem.2, hrceq.symm⟩
  · obtain ⟨k, hk, hget, hearly, hbound⟩ :=
      pickMax_first (amtOf t) (vamCands t) (0, 0) hcne
    rw [← vamSelect_eq] at hget hearly hbound
    exact ⟨k, hk, hget, hearly, hbound⟩

def vamT0 : TTable :=
  { rows := [("R0", 20), ("R1", 30)], cols := [("C0", 25), ("C1", 25)],
    vals := [[1, 4], [6, 2]] }

theorem C8_vam_selection_witness :
    (∀ l : List ℚ, l ≠ [] → penalty l = |listMin l - listMin (l.erase (listMin l))|) ∧
    (∀ i, i < (penaltyList vamT0).length →
      (penaltyList vamT0).getD i 0 ≤ maxPen vamT0 ∧
        (i ∈ tiedLines vamT0 ↔ (penaltyList vamT0).getD i 0 = maxPen vamT0)) ∧
    (∀ rc ∈ vamCands vamT0, ∃ i, i ∈ tiedLines vamT0 ∧ ∃ j, j < (lineOf vamT0 i).length ∧
      (lineOf vamT0 i).getD j 0 = listMin (lineOf vamT0 i) ∧ rc = rcOf vamT0.vals.length i j) ∧
    vamCands vamT0 ≠ [] ∧
    (∃ k, ∃ hk : k < (vamCands vamT0).length,
      (vamCands vamT0).get ⟨k, hk⟩ = vamSelect vamT0 ∧
      (∀ j, ∀ hj : j < (vamCands vamT0).length, j < k →
        amtOf vamT0 ((vamCands vamT0).get ⟨j, hj⟩) < amtOf vamT0 (vamSelect vamT0)) ∧
      (∀ c ∈ vamCands vamT0, amtOf vamT0 c ≤ amtOf vamT0 (vamSelect vamT0))) ∧
    vamStep vamT0 = allocateStep vamT0 (vamSelect vamT0).1 (vamSelect vamT0).2 :=
  C8_vam_selection vamT0 (by with_unfolding_all decide) (by with_unfolding_all decide)

/-- Dimensional well-formedness of the bordered table: one value row per
supply row, one value column per demand column. -/
def wfT (t : TTable) : Prop :=
  t.vals.length = t.rows.length ∧ ∀ r ∈ t.vals, r.length = t.cols.length

theorem colsOf_length (vals : List (List ℚ)) :
    (colsOf vals).length = (vals.getD 0 []).length := by
  rw [colsOf, List.length_map, List.length_range]

theorem colsOf_getD (vals : List (List ℚ)) (k : ℕ)
    (hk : k < (colsOf vals).length) :
    (colsOf vals).getD k [] = vals.map (fun row => row.getD k 0) := by
  rw [colsOf_length] at hk
  rw [colsOf, List.getD_eq_getElem?_getD, List.getElem?_map, List.getElem?_range hk]
  rfl

theorem mem_argmins {L : List ℚ} {j : ℕ} (h : j ∈ argmins L) :
    j < L.length ∧ L.getD j 0 = listMin L := by
  rw [argmins, List.mem_filter, List.mem_range] at h
  exact ⟨h.1, of_decide_eq_true h.2⟩

theorem mem_vamCands {t : TTable} {rc : ℕ × ℕ} (h : rc ∈ vamCands t) :
    ∃ i, i < (penaltyList t).length ∧ ∃ j, j < (lineOf t i).length ∧
      rc = rcOf t.vals.length i j := by
  rw [vamCands, List.mem_flatMap] at h
  obtain ⟨i, hitied, hmap⟩ := h
  obtain ⟨j, hjmem, hrceq⟩ := List.mem_map.1 hmap
  rw [tiedLines, List.mem_filter, List.mem_range] at hitied
  exact ⟨i, hitied.1, j, (mem_argmins hjmem).1, hrceq.symm⟩

theorem vamSelect_mem (t : TTable) (hvne : t.vals ≠ [])
    (hrow : ∀ r ∈ t.vals, r ≠ []) : vamSelect t ∈ vamCands t := by
  obtain ⟨k, hk, hget, -, -⟩ :=
    pickMax_first (amtOf t) (vamCands t) (0, 0) (vamCands_ne_nil t hvne hrow)
  rw [← vamSelect_eq] at hget
  rw [← hget]
  exact List.getElem_mem hk

theorem vamSelect_lt (t : TTable) (hwf : wfT t) (hrne : t.rows ≠ [])
    (hcne : t.cols ≠ []) :
    (vamSelect t).1 < t.rows.length ∧ (vamSelect t).2 < t.cols.length := by
  have hvne : t.vals ≠ [] := by
    intro hc
    have h1 := hwf.1
    rw [hc] at h1
    exact hrne (List.length_eq_zero.1 h1.symm)
  have hcpos : 0 < t.cols.length := List.length_pos.2 hcne
  have hrow : ∀ r ∈ t.vals, r ≠ [] := by
    intro r hr hc
    rw [hc] at hr
    have := hwf.2 [] hr
    simp at this
    omega
  obtain ⟨i, hi, j, hj, hrc⟩ := mem_vamCands (vamSelect_mem t hvne hrow)
  rw [penaltyList, List.length_append, List.length_map, List.length_map] at hi
  have hfirstrow : (t.vals.getD 0 []).length = t.cols.length := by
    apply hwf.2
    apply getD_mem_of_lt_list
    exact List.length_pos.2 hvne
  rw [hrc, rcOf]
  by_cases hin : i < t.vals.length
  · rw [if_pos hin]
    refine ⟨by rw [← hwf.1]; exact hin, ?_⟩
    rw [lineOf, if_pos hin] at hj
    rw [← hwf.2 (t.vals.getD i []) (getD_mem_of_lt_list hin)]
    exact hj
  · rw [if_neg hin]
    rw [colsOf_length] at hi
    have hic : i - t.vals.length < (colsOf t.vals).length := by
      rw [colsOf_length, hfirstrow]
      omega
    refine ⟨?_, by rw [colsOf_length, hfirstrow] at hic; exact hic⟩
    rw [lineOf, if_neg hin, colsOf_getD t.vals (i - t.vals.length) hic,
      List.length_map] at hj
    rw [← hwf.1]
    exact hj

theorem allocateStep_wf (t : TTable) (x y : ℕ) (hx : x < t.rows.length)
    (hy : y < t.cols.length) (hwf : wfT t) : wfT (allocateStep t x y).1 := by
  have hxv : x < t.vals.length := by rw [hwf.1]; exact hx
  rw [allocateStep]
  by_cases h1 : (t.rows.getD x ("", 0)).2 < (t.cols.getD y ("", 0)).2
  · rw [if_pos h1]
    refine ⟨?_, ?_⟩
    · rw [List.length_eraseIdx_of_lt hxv, List.length_eraseIdx_of_lt hx, hwf.1]
    · intro r hr
      rw [List.length_set]
      exact hwf.2 r ((List.eraseIdx_sublist t.vals x).subset hr)
  · rw [if_neg h1]
    by_cases h2 : (t.cols.getD y ("", 0)).2 < (t.rows.getD x ("", 0)).2
    · rw [if_pos h2]
      refine ⟨?_, ?_⟩
      · rw [List.length_map, List.length_set, hwf.1]
      · intro r hr
        obtain ⟨r0, hr0, hre⟩ := List.mem_map.1 hr
        rw [← hre, List.length_eraseIdx_of_lt (by rw [hwf.2 r0 hr0]; exact hy),
          hwf.2 r0 hr0, List.length_eraseIdx_of_lt hy]
    · rw [if_neg h2]
      refine ⟨?_, ?_⟩
      · rw [List.length_map, List.length_eraseIdx_of_lt hxv,
          List.length_eraseIdx_of_lt hx, hwf.1]
      · intro r hr
        obtain ⟨r0, hr0, hre⟩ := List.mem_map.1 hr
        have hr0v : r0 ∈ t.vals := (List.eraseIdx_sublist t.vals x).subset hr0
        rw [← hre, List.length_eraseIdx_of_lt (by rw [hwf.2 r0 hr0v]; exact hy),
          hwf.2 r0 hr0v, List.length_eraseIdx_of_lt hy]

theorem allocateStep_labels (t : TTable) (x y : ℕ) (hx : x < t.rows.length)
    (hy : y < t.cols.length) (R C : String → Prop)
    (hR : ∀ p ∈ t.rows, R p.1) (hC : ∀ p ∈ t.cols, C p.1) :
    (∀ p ∈ (allocateStep t x y).1.rows, R p.1) ∧
    (∀ p ∈ (allocateStep t x y).1.cols, C p.1) ∧
    R (allocateStep t x y).2.1 ∧ C (allocateStep t x y).2.2.1 := by
  have hrg : t.rows.getD x ("", 0) ∈ t.rows := by
    rw [List.getD_eq_getElem?_getD, List.getElem?_eq_getElem hx]
    exact List.getElem_mem hx
  have hcg : t.cols.getD y ("", 0) ∈ t.cols := by
    rw [List.getD_eq_getElem?_getD, List.getElem?_eq_getElem hy]
    exact List.getElem_mem hy
  have hrowsub : ∀ p ∈ t.rows.eraseIdx x, R p.1 :=
    fun p hp => hR p ((List.eraseIdx_sublist t.rows x).subset hp)
  have hcolsub : ∀ p ∈ t.cols.eraseIdx y, C p.1 :=
    fun p hp => hC p ((List.eraseIdx_sublist t.cols y).subset hp)
  have hcolset : ∀ v, ∀ p ∈ t.cols.set y ((t.cols.getD y ("", 0)).1, v), C p.1 := by
    intro v p hp
    rcases List.mem_or_eq_of_mem_set hp with hin | he
    · exact hC p hin
    · rw [he]
      exact hC (t.cols.getD y ("", 0)) hcg
  have hrowset : ∀ v, ∀ p ∈ t.rows.set x ((t.rows.getD x ("", 0)).1, v), R p.1 := by
    intro v p hp
    rcases List.mem_or_eq_of_mem_set hp with hin | he
    · exact hR p hin
    · rw [he]
      exact hR (t.rows.getD x ("", 0)) hrg
  rw [allocateStep]
  by_cases h1 : (t.rows.getD x ("", 0)).2 < (t.cols.getD y ("", 0)).2
  · rw [if_pos h1]
    exact ⟨hrowsub, hcolset _, hR (t.rows.getD x ("", 0)) hrg, hC (t.cols.getD y ("", 0)) hcg⟩
  · rw [if_neg h1]
    by_cases h2 : (t.cols.getD y ("", 0)).2 < (t.rows.getD x ("", 0)).2
    · rw [if_pos h2]
      exact ⟨hrowset _, hcolsub, hR (t.rows.getD x ("", 0)) hrg, hC (t.cols.getD y ("", 0)) hcg⟩
    · rw [if_neg h2]
      exact ⟨hrowsub, hcolsub, hR (t.rows.getD x ("", 0)) hrg, hC (t.cols.getD y ("", 0)) hcg⟩

/-- Every triple the VAM loop appends carries a row label satisfying `R`
and a column label satisfying `C`, provided the current border labels
do. -/
theorem vamLoop_labels (R C : String → Prop) :
    ∀ (fuel : ℕ) (t : TTable) (acc : List (String × String × ℚ)),
      wfT t → (∀ p ∈ t.rows, R p.1) → (∀ p ∈ t.cols, C p.1) →
      ∀ e ∈ (vamLoop fuel t acc).alloc, e ∈ acc ∨ (R e.1 ∧ C e.2.1) := by
  intro fuel
  induction fuel with
  | zero =>
    intro t acc _ _ _ e he
    exact Or.inl he
  | succ fuel ih =>
    intro t acc hwf hR hC e he
    rw [vamLoop] at he
    by_cases hb : t.rows.isEmpty && t.cols.isEmpty
    · rw [if_pos hb] at he
      exact Or.inl he
    · rw [if_neg hb] at he
      by_cases hb2 : t.rows.isEmpty || t.cols.isEmpty
      · rw [if_pos hb2] at he
        exact Or.inl he
      · rw [if_neg hb2] at he
        have hrne : t.rows ≠ [] := by
          intro hc
          rw [hc] at hb2
          simp at hb2
        have hcne : t.cols ≠ [] := by
          intro hc
          rw [hc] at hb2
          simp at hb2
        obtain ⟨hx, hy⟩ := vamSelect_lt t hwf hrne hcne
        have hwf2 := allocateStep_wf t (vamSelect t).1 (vamSelect t).2 hx hy hwf
        obtain ⟨hR2, hC2, hRe, hCe⟩ :=
          allocateStep_labels t (vamSelect t).1 (vamSelect t).2 hx hy R C hR hC
        have := ih (vamStep t).1 (acc ++ [(vamStep t).2]) hwf2 hR2 hC2 e he
        rcases this with hin | hgood
        · rcases List.mem_append.1 hin with hl | hr
          · exact Or.inl hl
          · rw [List.mem_singleton] at hr
            subst hr
            exact Or.inr ⟨hRe, hCe⟩
        · exact Or.inr hgood

/-- C10 (amended): every entry of the allocation list the BFS
constructor returns is a triple (row_label, column_label, flow) whose
labels are the header strings "R" ++ i and "C" ++ j for original indices
i < n, j < m of the (rectangular) cost matrix — string labels, not the
integer indices themselves. -/
theorem C10_amended (cost : List (List ℚ)) (supply demand : List ℚ)
    (hrect : ∀ r ∈ cost, r.length = (cost.getD 0 []).length) :
    ∀ e ∈ (vamSolve (setupTable cost supply demand)).alloc,
      ∃ i j v, i < cost.length ∧ j < (cost.getD 0 []).length ∧
        e = ("R" ++ Nat.repr i, "C" ++ Nat.repr j, v) := by
  intro e he
  have hlab := vamLoop_labels
    (fun s => ∃ i, i < cost.length ∧ s = "R" ++ Nat.repr i)
    (fun s => ∃ j, j < (cost.getD 0 []).length ∧ s = "C" ++ Nat.repr j)
    ((setupTable cost supply demand).rows.length +
      (setupTable cost supply demand).cols.length + 1)
    (setupTable cost supply demand) [] ?_ ?_ ?_ e ?_
  · rcases hlab with hin | ⟨⟨i, hi, hRe⟩, ⟨j, hj, hCe⟩⟩
    · cases hin
    · exact ⟨i, j, e.2.2, hi, hj, by rw [← hRe, ← hCe]⟩
  · refine ⟨?_, ?_⟩
    · rw [setupTable, List.length_map, List.length_range]
    · intro r hr
      rw [setupTable, List.length_map, List.length_range]
      exact hrect r hr
  · intro p hp
    rw [setupTable] at hp
    obtain ⟨i, hi, he2⟩ := List.mem_map.1 hp
    rw [List.mem_range] at hi
    exact ⟨i, hi, by rw [← he2]⟩
  · intro p hp
    rw [setupTable] at hp
    obtain ⟨j, hj, he2⟩ := List.mem_map.1 hp
    rw [List.mem_range] at hj
    exact ⟨j, hj, by rw [← he2]⟩
  · rw [vamSolve] at he
    exact he

theorem C10_amended_witness :
    ∃ i j v, i < ([[(1 : ℚ), 2], [3, 4]] : List (List ℚ)).length ∧
      j < (([[(1 : ℚ), 2], [3, 4]] : List (List ℚ)).getD 0 []).length ∧
      (("R0", "C0", (5 : ℚ)) : String × String × ℚ) =
        ("R" ++ Nat.repr i, "C" ++ Nat.repr j, v) :=
  C10_amended [[1, 2], [3, 4]] [5, 5] [5, 5] (by with_unfolding_all decide)
    ("R0", "C0", 5) (by with_unfolding_all decide)

/-- Sum of the flows an allocation assigns inside row `i`. -/
def rowSumA (a : Alloc) (i : ℕ) : ℚ :=
  (a.map (fun p => if p.1.1 = i then p.2 else 0)).sum

/-- Sum of the flows an allocation assigns inside column `j`. -/
def colSumA (a : Alloc) (j : ℕ) : ℚ :=
  (a.map (fun p => if p.1.2 = j then p.2 else 0)).sum

/-- Row-wise pairing of a loop: cells at positions (0,1), (2,3), ...
share a row (the plus/minus pattern of `_reallocate` cancels row-wise
exactly on such loops). -/
def pairedFst : List Cell → Bool
  | [] => true
  | _ :: [] => false
  | x :: y :: rest => decide (x.1 = y.1) && pairedFst rest

/-- Column-wise pairing: applied to the rotated loop it pairs positions
(1,2), (3,4), ..., (last,0) of the original. -/
def pairedSnd : List Cell → Bool
  | [] => true
  | _ :: [] => false
  | x :: y :: rest => decide (x.2 = y.2) && pairedSnd rest

/-- C1 counterexample: a five-cell basis (accepted unchecked by
`MODI.__init__`) on a 2-by-3 cost matrix makes the entering cell (0,0)
close an odd, five-cell "lollipop" loop; the reallocation then adds
theta to row 0's total flow: the solver exits OPTIMAL with row 0 summing
to 3 though the input basis (hence the implied supply) summed to 2 —
the reallocation step does not preserve the row-sum invariant. -/
theorem C1_counterexample :
    (modiRun [[0, 2, 1], [3, 1, 1]]
        [((0, 1), 1), ((1, 1), 1), ((1, 2), 2), ((0, 2), 1), ((1, 0), 1)]).2 =
      ExitKind.optimal ∧
    rowSumA [((0, 1), 1), ((1, 1), 1), ((1, 2), 2), ((0, 2), 1), ((1, 0), 1)] 0 = 2 ∧
    rowSumA (modiRun [[0, 2, 1], [3, 1, 1]]
        [((0, 1), 1), ((1, 1), 1), ((1, 2), 2), ((0, 2), 1), ((1, 0), 1)]).1 0 = 3 ∧
    (2 : ℚ) ≠ 3 := by
  with_unfolding_all decide

theorem keys_aset (a : Alloc) (c : Cell) (v : ℚ) :
    keys (aset a c v) = if hasKey a c then keys a else keys a ++ [c] := by
  rw [aset]
  by_cases h : hasKey a c
  · rw [if_pos h, if_pos h, keys, keys, List.map_map]
    apply List.map_congr_left
    intro p _
    simp only [Function.comp]
    by_cases hp : p.1 = c
    · rw [if_pos hp]
      exact hp.symm
    · rw [if_neg hp]
  · rw [if_neg h, if_neg h, keys, keys, List.map_append]
    rfl

theorem aset_keys_nodup {a : Alloc} {c : Cell} {v : ℚ}
    (h : (keys a).Nodup) : (keys (aset a c v)).Nodup := by
  rw [keys_aset]
  by_cases hk : hasKey a c
  · rw [if_pos hk]
    exact h
  · rw [if_neg hk]
    rw [List.nodup_append]
    refine ⟨h, List.nodup_singleton c, ?_⟩
    intro x hx hx2
    rw [List.mem_singleton] at hx2
    subst hx2
    exact hk (hasKey_iff_mem_keys.2 hx)

theorem aset_cons_ne (p : Cell × ℚ) (as : Alloc) (c : Cell) (v : ℚ)
    (hpc : p.1 ≠ c) : aset (p :: as) c v = p :: aset as c v := by
  have hhk : hasKey (p :: as) c = hasKey as c := by
    rw [hasKey, hasKey, List.find?_cons_of_neg]
    simp [hpc]
  rw [aset, aset, hhk]
  by_cases h : hasKey as c
  · rw [if_pos h, if_pos h, List.map_cons, if_neg hpc]
  · rw [if_neg h, if_neg h, List.cons_append]

theorem lookupD_cons_ne (p : Cell × ℚ) (as : Alloc) (c : Cell) (d : ℚ)
    (hpc : p.1 ≠ c) : lookupD (p :: as) c d = lookupD as c d := by
  rw [lookupD, lookupD, List.find?_cons_of_neg]
  simp [hpc]

theorem lookupD_cons_eq (p : Cell × ℚ) (as : Alloc) (c : Cell) (d : ℚ)
    (hpc : p.1 = c) : lookupD (p :: as) c d = p.2 := by
  rw [lookupD, List.find?_cons_of_pos]
  simp [hpc]

theorem rowSumA_cons (p : Cell × ℚ) (as : Alloc) (i : ℕ) :
    rowSumA (p :: as) i = (if p.1.1 = i then p.2 else 0) + rowSumA as i := rfl

theorem colSumA_cons (p : Cell × ℚ) (as : Alloc) (j : ℕ) :
    colSumA (p :: as) j = (if p.1.2 = j then p.2 else 0) + colSumA as j := rfl

theorem aset_rowSum (i : ℕ) (c : Cell) (v : ℚ) :
    ∀ (a : Alloc), (keys a).Nodup →
      rowSumA (aset a c v) i = rowSumA a i + (if c.1 = i then v - lookupD a c 0 else 0) := by
  intro a
  induction a with
  | nil =>
    intro _
    rw [show aset [] c v = [(c, v)] from rfl]
    rw [rowSumA, rowSumA, lookupD]
    simp
  | cons p as ih =>
    intro hnd
    rw [keys, List.map_cons, List.nodup_cons] at hnd
    obtain ⟨hpn, hndas⟩ := hnd
    by_cases hpc : p.1 = c
    · have hk : hasKey (p :: as) c := by
        rw [hasKey, List.find?_cons_of_pos]
        · rfl
        · simp [hpc]
      have hmapfix : as.map (fun q => if q.1 = c then (c, v) else q) = as := by
        have h2 : as.map (fun q => if q.1 = c then (c, v) else q) = as.map id := by
          apply List.map_congr_left
          intro q hq
          rw [if_neg]
          · rfl
          · intro hqc
            rw [← hpc] at hqc
            exact hpn (hqc ▸ List.mem_map_of_mem (·.1) hq)
        rw [h2, List.map_id]
      rw [aset, if_pos hk, List.map_cons, if_pos hpc, hmapfix,
        rowSumA_cons, rowSumA_cons, lookupD_cons_eq p as c 0 hpc]
      by_cases hci : c.1 = i
      · rw [if_pos (show (c, v).1.1 = i from hci),
          if_pos (show p.1.1 = i by rw [hpc]; exact hci), if_pos hci]
        ring
      · rw [if_neg (show ¬(c, v).1.1 = i from hci),
          if_neg (show ¬p.1.1 = i by rw [hpc]; exact hci), if_neg hci]
        ring
    · rw [aset_cons_ne p as c v hpc, rowSumA_cons, rowSumA_cons, ih hndas,
        lookupD_cons_ne p as c 0 hpc]
      ring

theorem aset_colSum (j : ℕ) (c : Cell) (v : ℚ) :
    ∀ (a : Alloc), (keys a).Nodup →
      colSumA (aset a c v) j = colSumA a j + (if c.2 = j then v - lookupD a c 0 else 0) := by
  intro a
  induction a with
  | nil =>
    intro _
    rw [show aset [] c v = [(c, v)] from rfl]
    rw [colSumA, colSumA, lookupD]
    simp
  | cons p as ih =>
    intro hnd
    rw [keys, List.map_cons, List.nodup_cons] at hnd
    obtain ⟨hpn, hndas⟩ := hnd
    by_cases hpc : p.1 = c
    · have hk : hasKey (p :: as) c := by
        rw [hasKey, List.find?_cons_of_pos]
        · rfl
        · simp [hpc]
      have hmapfix : as.map (fun q => if q.1 = c then (c, v) else q) = as := by
        have h2 : as.map (fun q => if q.1 = c then (c, v) else q) = as.map id := by
          apply List.map_congr_left
          intro q hq
          rw [if_neg]
          · rfl
          · intro hqc
            rw [← hpc] at hqc
            exact hpn (hqc ▸ List.mem_map_of_mem (·.1) hq)
        rw [h2, List.map_id]
      rw [aset, if_pos hk, List.map_cons, if_pos hpc, hmapfix,
        colSumA_cons, colSumA_cons, lookupD_cons_eq p as c 0 hpc]
      by_cases hcj : c.2 = j
      · rw [if_pos (show (c, v).1.2 = j from hcj),
          if_pos (show p.1.2 = j by rw [hpc]; exact hcj), if_pos hcj]
        ring
      · rw [if_neg (show ¬(c, v).1.2 = j from hcj),
          if_neg (show ¬p.1.2 = j by rw [hpc]; exact hcj), if_neg hcj]
        ring
    · rw [aset_cons_ne p as c v hpc, colSumA_cons, colSumA_cons, ih hndas,
        lookupD_cons_ne p as c 0 hpc]
      ring

/-- The update loop of `_reallocate` in plain recursion, carrying the
enumeration position. -/
def applyAux (t : ℚ) : Alloc → List Cell → ℕ → Alloc
  | a, [], _ => a
  | a, c :: cs, k =>
    applyAux t (if k % 2 = 0 then aset a c (lookupD a c 0 + t)
      else aset a c (lookupD a c 0 - t)) cs (k + 1)

theorem applyLoop_eq_aux (t : ℚ) (a : Alloc) (L : List Cell) :
    applyLoop a L t = applyAux t a L 0 := by
  rw [applyLoop, List.enum]
  suffices h : ∀ (cs : List Cell) (a0 : Alloc) (k : ℕ),
      (cs.enumFrom k).foldl (fun a2 p =>
        if p.1 % 2 = 0 then aset a2 p.2 (lookupD a2 p.2 0 + t)
        else aset a2 p.2 (lookupD a2 p.2 0 - t)) a0 = applyAux t a0 cs k by
    exact h L a 0
  intro cs
  induction cs with
  | nil => intro a0 k; rfl
  | cons c rest ih =>
    intro a0 k
    rw [List.enumFrom_cons, List.foldl_cons, applyAux, ih]

theorem applyAux_keys_nodup (t : ℚ) :
    ∀ (cs : List Cell) (a : Alloc) (k : ℕ), (keys a).Nodup →
      (keys (applyAux t a cs k)).Nodup := by
  intro cs
  induction cs with
  | nil => intro a k h; exact h
  | cons c rest ih =>
    intro a k h
    rw [applyAux]
    by_cases hk : k % 2 = 0
    · rw [if_pos hk]
      exact ih _ _ (aset_keys_nodup h)
    · rw [if_neg hk]
      exact ih _ _ (aset_keys_nodup h)

theorem applyAux_rowSum (t : ℚ) (i : ℕ) :
    ∀ (cs : List Cell) (a : Alloc) (k : ℕ), (keys a).Nodup →
      pairedFst cs = true → k % 2 = 0 →
      rowSumA (applyAux t a cs k) i = rowSumA a i := by
  intro cs
  induction cs using pairedFst.induct with
  | case1 => intro a k _ _ _; rfl
  | case2 x =>
    intro a k _ hp _
    rw [pairedFst] at hp
    cases hp
  | case3 x y rest ih =>
    intro a k hnd hp hk
    rw [pairedFst, Bool.and_eq_true, decide_eq_true_eq] at hp
    obtain ⟨hxy, hrest⟩ := hp
    rw [applyAux, if_pos hk, applyAux,
      if_neg (show ¬(k + 1) % 2 = 0 by omega)]
    have hnd2 : (keys (aset a x (lookupD a x 0 + t))).Nodup := aset_keys_nodup hnd
    have hnd3 : (keys (aset (aset a x (lookupD a x 0 + t)) y
        (lookupD (aset a x (lookupD a x 0 + t)) y 0 - t))).Nodup := aset_keys_nodup hnd2
    rw [ih _ _ hnd3 hrest (by omega)]
    rw [aset_rowSum i y _ _ hnd2, aset_rowSum i x _ _ hnd]
    by_cases hxi : x.1 = i
    · rw [if_pos hxi, if_pos (by rw [← hxy]; exact hxi)]
      ring
    · rw [if_neg hxi, if_neg (by rw [← hxy]; exact hxi)]
      ring

theorem applyAux_colSum_carry (t : ℚ) (j : ℕ) :
    ∀ (cs : List Cell) (target : Cell) (a : Alloc) (k : ℕ), (keys a).Nodup →
      pairedSnd (cs ++ [target]) = true → k % 2 = 1 →
      colSumA (applyAux t a cs k) j =
        colSumA a j - (if target.2 = j then t else 0) := by
  intro cs
  induction cs using pairedFst.induct with
  | case1 =>
    intro target a k _ hp _
    rw [List.nil_append, pairedSnd] at hp
    cases hp
  | case2 x =>
    intro target a k hnd hp hk
    rw [List.cons_append, List.nil_append, pairedSnd, Bool.and_eq_true,
      decide_eq_true_eq] at hp
    obtain ⟨hxt, -⟩ := hp
    rw [applyAux, if_neg (by omega : ¬k % 2 = 0), applyAux,
      aset_colSum j x _ _ hnd]
    by_cases hxj : x.2 = j
    · rw [if_pos hxj, if_pos (by rw [← hxt]; exact hxj)]
      ring
    · rw [if_neg hxj, if_neg (by rw [← hxt]; exact hxj)]
      ring
  | case3 x y rest ih =>
    intro target a k hnd hp hk
    rw [List.cons_append, List.cons_append, pairedSnd, Bool.and_eq_true,
      decide_eq_true_eq] at hp
    obtain ⟨hxy, hrest⟩ := hp
    rw [applyAux, if_neg (by omega : ¬k % 2 = 0), applyAux,
      if_pos (show (k + 1) % 2 = 0 by omega)]
    have hnd2 : (keys (aset a x (lookupD a x 0 - t))).Nodup := aset_keys_nodup hnd
    have hnd3 : (keys (aset (aset a x (lookupD a x 0 - t)) y
        (lookupD (aset a x (lookupD a x 0 - t)) y 0 + t))).Nodup := aset_keys_nodup hnd2
    rw [ih target _ _ hnd3 hrest (by omega)]
    rw [aset_colSum j y _ _ hnd2, aset_colSum j x _ _ hnd]
    by_cases hxj : x.2 = j
    · rw [if_pos hxj, if_pos (by rw [← hxy]; exact hxj)]
      ring
    · rw [if_neg hxj, if_neg (by rw [← hxy]; exact hxj)]
      ring

theorem adel_rowSum (i : ℕ) (c : Cell) :
    ∀ (a : Alloc), (keys a).Nodup →
      rowSumA (adel a c) i = rowSumA a i - (if c.1 = i then lookupD a c 0 else 0) := by
  intro a
  induction a with
  | nil =>
    intro _
    rw [adel, lookupD]
    simp [rowSumA]
  | cons p as ih =>
    intro hnd
    rw [keys, List.map_cons, List.nodup_cons] at hnd
    obtain ⟨hpn, hndas⟩ := hnd
    by_cases hpc : p.1 = c
    · have hfix : adel (p :: as) c = as := by
        rw [adel, List.filter_cons_of_neg (by simp [hpc])]
        rw [adel] at ih
        have h2 : as.filter (fun q => decide (q.1 ≠ c)) = as := by
          apply List.filter_eq_self.2
          intro q hq
          rw [decide_eq_true_eq]
          intro hqc
          rw [← hpc] at hqc
          exact hpn (hqc ▸ List.mem_map_of_mem (·.1) hq)
        exact h2
      rw [hfix, lookupD_cons_eq p as c 0 hpc, rowSumA_cons]
      by_cases hci : c.1 = i
      · rw [if_pos (by rw [hpc]; exact hci), if_pos hci]
        ring
      · rw [if_neg (by rw [hpc]; exact hci), if_neg hci]
        ring
    · rw [adel, List.filter_cons_of_pos (by simp [hpc]), ← adel, rowSumA_cons,
        rowSumA_cons, ih hndas, lookupD_cons_ne p as c 0 hpc]
      ring

theorem adel_colSum (j : ℕ) (c : Cell) :
    ∀ (a : Alloc), (keys a).Nodup →
      colSumA (adel a c) j = colSumA a j - (if c.2 = j then lookupD a c 0 else 0) := by
  intro a
  induction a with
  | nil =>
    intro _
    rw [adel, lookupD]
    simp [colSumA]
  | cons p as ih =>
    intro hnd
    rw [keys, List.map_cons, List.nodup_cons] at hnd
    obtain ⟨hpn, hndas⟩ := hnd
    by_cases hpc : p.1 = c
    · have hfix : adel (p :: as) c = as := by
        rw [adel, List.filter_cons_of_neg (by simp [hpc])]
        have h2 : as.filter (fun q => decide (q.1 ≠ c)) = as := by
          apply List.filter_eq_self.2
          intro q hq
          rw [decide_eq_true_eq]
          intro hqc
          rw [← hpc] at hqc
          exact hpn (hqc ▸ List.mem_map_of_mem (·.1) hq)
        exact h2
      rw [hfix, lookupD_cons_eq p as c 0 hpc, colSumA_cons]
      by_cases hcj : c.2 = j
      · rw [if_pos (by rw [hpc]; exact hcj), if_pos hcj]
        ring
      · rw [if_neg (by rw [hpc]; exact hcj), if_neg hcj]
        ring
    · rw [adel, List.filter_cons_of_pos (by simp [hpc]), ← adel, colSumA_cons,
        colSumA_cons, ih hndas, lookupD_cons_ne p as c 0 hpc]
      ring

theorem dropFirstZero_sums (a : Alloc) (hnd : (keys a).Nodup) :
    ∀ (cells : List Cell),
      (∀ i, rowSumA (dropFirstZero a cells) i = rowSumA a i) ∧
      (∀ j, colSumA (dropFirstZero a cells) j = colSumA a j) := by
  intro cells
  induction cells with
  | nil => exact ⟨fun i => rfl, fun j => rfl⟩
  | cons c rest ih =>
    rw [dropFirstZero]
    by_cases hz : lookupD a c 0 = 0
    · rw [if_pos hz]
      constructor
      · intro i
        rw [adel_rowSum i c a hnd, hz]
        simp
      · intro j
        rw [adel_colSum j c a hnd, hz]
        simp
    · rw [if_neg hz]
      exact ih

/-- `_reallocate` preserves every row and column flow sum whenever the
loop pairs up row-wise from the front and column-wise around the
rotation — the shape every even alternating closed loop has, and odd
loops do not. -/
theorem reallocate_sums (a : Alloc) (start : Cell) (rest : List Cell)
    (hnd : (keys a).Nodup)
    (hrow : pairedFst (start :: rest) = true)
    (hcol : pairedSnd (rest ++ [start]) = true) :
    (∀ i, rowSumA (reallocate a (start :: rest)) i = rowSumA a i) ∧
    (∀ j, colSumA (reallocate a (start :: rest)) j = colSumA a j) := by
  rw [reallocate]
  have hone := applyLoop_eq_aux (theta a (start :: rest)) a (start :: rest)
  set t := theta a (start :: rest)
  have hndf : (keys (applyLoop a (start :: rest) t)).Nodup := by
    rw [hone]
    exact applyAux_keys_nodup t (start :: rest) a 0 hnd
  have hdrop := dropFirstZero_sums (applyLoop a (start :: rest) t) hndf
    (minusCells (start :: rest))
  constructor
  · intro i
    rw [(hdrop.1 i), hone]
    exact applyAux_rowSum t i (start :: rest) a 0 hnd hrow rfl
  · intro j
    rw [(hdrop.2 j), hone]
    rw [show applyAux t a (start :: rest) 0 =
      applyAux t (aset a start (lookupD a start 0 + t)) rest 1 from rfl]
    have hrne : rest ≠ [] := by
      intro hc
      rw [hc, pairedFst] at hrow
      cases hrow
    have hnd1 : (keys (aset a start (lookupD a start 0 + t))).Nodup :=
      aset_keys_nodup hnd
    rw [applyAux_colSum_carry t j rest start _ 1 hnd1 hcol rfl,
      aset_colSum j start _ a hnd]
    by_cases hsj : start.2 = j
    · rw [if_pos hsj, if_pos hsj]
      ring
    · rw [if_neg hsj, if_neg hsj]
      ring

/-- Flow already emitted to triples carrying row label `lab`. -/
def rowOutL (out : List (String × String × ℚ)) (lab : String) : ℚ :=
  (out.map (fun e => if e.1 = lab then e.2.2 else 0)).sum

/-- Flow already emitted to triples carrying column label `lab`. -/
def colOutL (out : List (String × String × ℚ)) (lab : String) : ℚ :=
  (out.map (fun e => if e.2.1 = lab then e.2.2 else 0)).sum

/-- Remaining supply on the border rows labelled `lab`. -/
def rowRemain (t : TTable) (lab : String) : ℚ :=
  (t.rows.map (fun p => if p.1 = lab then p.2 else 0)).sum

/-- Remaining demand on the border columns labelled `lab`. -/
def colRemain (t : TTable) (lab : String) : ℚ :=
  (t.cols.map (fun p => if p.1 = lab then p.2 else 0)).sum

theorem sum_map_eraseIdx {α : Type} (f : α → ℚ) :
    ∀ (l : List α) (x : ℕ) (hx : x < l.length),
      ((l.eraseIdx x).map f).sum = (l.map f).sum - f l[x] := by
  intro l
  induction l with
  | nil => intro x hx; simp at hx
  | cons p rest ih =>
    intro x hx
    rcases x with _ | x2
    · rw [List.eraseIdx_cons_zero, List.map_cons, List.sum_cons]
      simp only [List.getElem_cons_zero]
      ring
    · rw [List.eraseIdx_cons_succ, List.map_cons, List.sum_cons, ih x2 (by simpa using hx),
        List.map_cons, List.sum_cons]
      simp only [List.getElem_cons_succ]
      ring

theorem sum_map_set {α : Type} (f : α → ℚ) (v : α) :
    ∀ (l : List α) (x : ℕ) (hx : x < l.length),
      ((l.set x v).map f).sum = (l.map f).sum - f l[x] + f v := by
  intro l
  induction l with
  | nil => intro x hx; simp at hx
  | cons p rest ih =>
    intro x hx
    rcases x with _ | x2
    · rw [List.set_cons_zero, List.map_cons, List.sum_cons, List.map_cons, List.sum_cons]
      simp only [List.getElem_cons_zero]
      ring
    · rw [List.set_cons_succ, List.map_cons, List.sum_cons, ih x2 (by simpa using hx),
        List.map_cons, List.sum_cons]
      simp only [List.getElem_cons_succ]
      ring

theorem sum_if_eraseIdx (l : List (String × ℚ)) (x : ℕ) (hx : x < l.length) (lab : String) :
    ((l.eraseIdx x).map (fun p => if p.1 = lab then p.2 else 0)).sum =
      (l.map (fun p => if p.1 = lab then p.2 else 0)).sum -
        (if l[x].1 = lab then l[x].2 else 0) := by
  rw [sum_map_eraseIdx _ l x hx]

theorem sum_if_set (l : List (String × ℚ)) (x : ℕ) (hx : x < l.length)
    (v : String × ℚ) (lab : String) :
    ((l.set x v).map (fun p => if p.1 = lab then p.2 else 0)).sum =
      (l.map (fun p => if p.1 = lab then p.2 else 0)).sum -
        (if l[x].1 = lab then l[x].2 else 0) + (if v.1 = lab then v.2 else 0) := by
  rw [sum_map_set _ v l x hx]

theorem allocateStep_sums (t : TTable) (x y : ℕ) (hx : x < t.rows.length)
    (hy : y < t.cols.length) (lab : String) :
    rowRemain (allocateStep t x y).1 lab +
        (if (allocateStep t x y).2.1 = lab then (allocateStep t x y).2.2.2 else 0) =
      rowRemain t lab ∧
    colRemain (allocateStep t x y).1 lab +
        (if (allocateStep t x y).2.2.1 = lab then (allocateStep t x y).2.2.2 else 0) =
      colRemain t lab := by
  have hgr : t.rows.getD x ("", 0) = t.rows[x] := by
    rw [List.getD_eq_getElem?_getD, List.getElem?_eq_getElem hx]
    rfl
  have hgc : t.cols.getD y ("", 0) = t.cols[y] := by
    rw [List.getD_eq_getElem?_getD, List.getElem?_eq_getElem hy]
    rfl
  rw [allocateStep]
  by_cases h1 : (t.rows.getD x ("", 0)).2 < (t.cols.getD y ("", 0)).2
  · rw [if_pos h1]
    have hmins : min (t.rows.getD x ("", 0)).2 (t.cols.getD y ("", 0)).2 =
        (t.rows.getD x ("", 0)).2 := min_eq_left (le_of_lt h1)
    constructor
    · rw [rowRemain, rowRemain, sum_if_eraseIdx t.rows x hx lab, hmins, ← hgr]
      by_cases hl : (t.rows.getD x ("", 0)).1 = lab
      · simp only [if_pos hl]
        ring
      · simp only [if_neg hl]
        ring
    · rw [colRemain, colRemain, sum_if_set t.cols y hy _ lab, hmins, ← hgc]
      by_cases hl : (t.cols.getD y ("", 0)).1 = lab
      · simp only [if_pos hl]
        ring
      · simp only [if_neg hl]
        ring
  · rw [if_neg h1]
    by_cases h2 : (t.cols.getD y ("", 0)).2 < (t.rows.getD x ("", 0)).2
    · rw [if_pos h2]
      have hmins : min (t.rows.getD x ("", 0)).2 (t.cols.getD y ("", 0)).2 =
          (t.cols.getD y ("", 0)).2 := min_eq_right (le_of_lt h2)
      constructor
      · rw [rowRemain, rowRemain, sum_if_set t.rows x hx _ lab, hmins, ← hgr]
        by_cases hl : (t.rows.getD x ("", 0)).1 = lab
        · simp only [if_pos hl]
          ring
        · simp only [if_neg hl]
          ring
      · rw [colRemain, colRemain, sum_if_eraseIdx t.cols y hy lab, hmins, ← hgc]
        by_cases hl : (t.cols.getD y ("", 0)).1 = lab
        · simp only [if_pos hl]
          ring
        · simp only [if_neg hl]
          ring
    · rw [if_neg h2]
      have heq : (t.rows.getD x ("", 0)).2 = (t.cols.getD y ("", 0)).2 :=
        le_antisymm (le_of_not_lt h2) (le_of_not_lt h1)
      have hmins : min (t.rows.getD x ("", 0)).2 (t.cols.getD y ("", 0)).2 =
          (t.rows.getD x ("", 0)).2 := min_eq_left (le_of_eq heq)
      constructor
      · rw [rowRemain, rowRemain, sum_if_eraseIdx t.rows x hx lab, hmins, ← hgr]
        by_cases hl : (t.rows.getD x ("", 0)).1 = lab
        · simp only [if_pos hl]
          ring
        · simp only [if_neg hl]
          ring
      · rw [colRemain, colRemain, sum_if_eraseIdx t.cols y hy lab, hmins, heq, ← hgc]
        by_cases hl : (t.cols.getD y ("", 0)).1 = lab
        · simp only [if_pos hl]
          ring
        · simp only [if_neg hl]
          ring

theorem rowOutL_append (out : List (String × String × ℚ)) (e : String × String × ℚ)
    (lab : String) :
    rowOutL (out ++ [e]) lab = rowOutL out lab + (if e.1 = lab then e.2.2 else 0) := by
  rw [rowOutL, rowOutL, List.map_append, List.sum_append]
  simp

theorem colOutL_append (out : List (String × String × ℚ)) (e : String × String × ℚ)
    (lab : String) :
    colOutL (out ++ [e]) lab = colOutL out lab + (if e.2.1 = lab then e.2.2 else 0) := by
  rw [colOutL, colOutL, List.map_append, List.sum_append]
  simp

/-- Accounting invariant of the VAM loop: on finished runs the emitted
flow per label plus nothing remaining equals the label totals the loop
started with. -/
theorem vamLoop_sums :
    ∀ (fuel : ℕ) (t : TTable) (acc : List (String × String × ℚ)), wfT t →
      (vamLoop fuel t acc).finished = true →
      ∀ lab, rowOutL (vamLoop fuel t acc).alloc lab = rowOutL acc lab + rowRemain t lab ∧
        colOutL (vamLoop fuel t acc).alloc lab = colOutL acc lab + colRemain t lab := by
  intro fuel
  induction fuel with
  | zero =>
    intro t acc _ hfin
    rw [vamLoop] at hfin
    cases hfin
  | succ fuel ih =>
    intro t acc hwf hfin lab
    rw [vamLoop] at hfin ⊢
    by_cases hb : t.rows.isEmpty && t.cols.isEmpty
    · rw [if_pos hb] at hfin ⊢
      rw [Bool.and_eq_true, List.isEmpty_iff, List.isEmpty_iff] at hb
      rw [rowRemain, colRemain, hb.1, hb.2]
      simp
    · rw [if_neg hb] at hfin ⊢
      by_cases hb2 : t.rows.isEmpty || t.cols.isEmpty
      · rw [if_pos hb2] at hfin
        cases hfin
      · rw [if_neg hb2] at hfin ⊢
        have hrne : t.rows ≠ [] := by
          intro hc
          rw [hc] at hb2
          simp at hb2
        have hcne : t.cols ≠ [] := by
          intro hc
          rw [hc] at hb2
          simp at hb2
        obtain ⟨hx, hy⟩ := vamSelect_lt t hwf hrne hcne
        have hwf2 := allocateStep_wf t (vamSelect t).1 (vamSelect t).2 hx hy hwf
        obtain ⟨hrowacc, hcolacc⟩ :=
          allocateStep_sums t (vamSelect t).1 (vamSelect t).2 hx hy lab
        obtain ⟨hr, hc⟩ := ih (vamStep t).1 (acc ++ [(vamStep t).2]) hwf2 hfin lab
        constructor
        · rw [hr, rowOutL_append]
          rw [show (vamStep t).1 = (allocateStep t (vamSelect t).1 (vamSelect t).2).1 from rfl,
            show (vamStep t).2 = (allocateStep t (vamSelect t).1 (vamSelect t).2).2 from rfl]
          rw [← hrowacc]
          ring
        · rw [hc, colOutL_append]
          rw [show (vamStep t).1 = (allocateStep t (vamSelect t).1 (vamSelect t).2).1 from rfl,
            show (vamStep t).2 = (allocateStep t (vamSelect t).1 (vamSelect t).2).2 from rfl]
          rw [← hcolacc]
          ring

/-- C1 (amended): feasibility holds where the steps cancel. (a) On any
finished run of Vogel's constructor over a rectangular cost matrix, for
every label the total flow emitted to triples carrying that row
(column) label equals exactly — not merely within tolerance — the total
initial supply (demand) bound to that label in the border. (b) A
`_reallocate` step preserves every row and every column flow sum
whenever the loop it processes pairs cells row-wise from the front and
column-wise around the rotation, as every even-length alternating
closed loop does; odd "lollipop" loops, which the loop finder can
return on degenerate bases, violate this (see the counterexample). -/
theorem C1_feasibility (cost : List (List ℚ)) (supply demand : List ℚ)
    (hrect : ∀ r ∈ cost, r.length = (cost.getD 0 []).length) :
    ((vamSolve (setupTable cost supply demand)).finished = true →
      ∀ lab, rowOutL (vamSolve (setupTable cost supply demand)).alloc lab =
          rowRemain (setupTable cost supply demand) lab ∧
        colOutL (vamSolve (setupTable cost supply demand)).alloc lab =
          colRemain (setupTable cost supply demand) lab) ∧
    (∀ (a : Alloc) (start : Cell) (rest : List Cell), (keys a).Nodup →
      pairedFst (start :: rest) = true → pairedSnd (rest ++ [start]) = true →
      (∀ i, rowSumA (reallocate a (start :: rest)) i = rowSumA a i) ∧
      (∀ j, colSumA (reallocate a (start :: rest)) j = colSumA a j)) := by
  constructor
  · intro hfin lab
    have hwf : wfT (setupTable cost supply demand) := by
      refine ⟨?_, ?_⟩
      · rw [setupTable, List.length_map, List.length_range]
      · intro r hr
        rw [setupTable, List.length_map, List.length_range]
        exact hrect r hr
    rw [vamSolve] at hfin ⊢
    obtain ⟨hr, hc⟩ := vamLoop_sums
      ((setupTable cost supply demand).rows.length +
        (setupTable cost supply demand).cols.length + 1)
      (setupTable cost supply demand) [] hwf hfin lab
    constructor
    · rw [hr, rowOutL]
      simp
    · rw [hc, colOutL]
      simp
  · intro a start rest hnd hrow hcol
    exact reallocate_sums a start rest hnd hrow hcol

theorem C1_feasibility_witness :
    ((vamSolve (setupTable [[1, 2], [3, 4]] [5, 5] [5, 5])).finished = true →
      ∀ lab, rowOutL (vamSolve (setupTable [[1, 2], [3, 4]] [5, 5] [5, 5])).alloc lab =
          rowRemain (setupTable [[1, 2], [3, 4]] [5, 5] [5, 5]) lab ∧
        colOutL (vamSolve (setupTable [[1, 2], [3, 4]] [5, 5] [5, 5])).alloc lab =
          colRemain (setupTable [[1, 2], [3, 4]] [5, 5] [5, 5]) lab) ∧
    (∀ (a : Alloc) (start : Cell) (rest : List Cell), (keys a).Nodup →
      pairedFst (start :: rest) = true → pairedSnd (rest ++ [start]) = true →
      (∀ i, rowSumA (reallocate a (start :: rest)) i = rowSumA a i) ∧
      (∀ j, colSumA (reallocate a (start :: rest)) j = colSumA a j)) :=
  C1_feasibility [[1, 2], [3, 4]] [5, 5] [5, 5] (by with_unfolding_all decide)

/-- C6: counterexample — a degenerate 3-by-3 basis cycles (theta = 0
swaps) until the fixed 100-iteration cap is exhausted, and the caller
receives only the bare (basis, cost) pair — byte-for-byte the same shape
as a certified-optimal result, with no flag and no way to distinguish
the exits. -/
theorem C6_counterexample :
    (modiRun [[3, 0, 6], [2, 0, 4], [7, 0, 2]]
        [((2, 1), 0), ((0, 2), 2), ((0, 0), 3), ((1, 1), 1), ((2, 0), 1), ((1, 2), 1)]).2 =
      ExitKind.capExceeded ∧
    modiSolve [[3, 0, 6], [2, 0, 4], [7, 0, 2]]
        [((2, 1), 0), ((0, 2), 2), ((0, 0), 3), ((1, 1), 1), ((2, 0), 1), ((1, 2), 1)] =
      ([((0, 2), 1), ((0, 0), 4), ((1, 2), 2), ((2, 2), 0), ((2, 1), 1), ((1, 1), 0)], 26) := by
  with_unfolding_all decide

/-- C6 (amended): the refinement loop runs at most the fixed cap of 100
iterations (a constant, not an instance-dependent bound): exhausted fuel
yields the current basis with the cap-exceeded exit in the embedding's
bookkeeping, and the cap can actually be hit; but `MODI.solve` itself
returns only the basis and its cost — the same bare pair on every exit
path, so non-convergence carries no flag and is not distinguishable by
the caller from a certified-optimal result. -/
theorem C6_amended :
    (∀ (cost : List (List ℚ)) (bfs : List (Cell × ℚ)),
      modiSolve cost bfs = ((modiRun cost bfs).1, costValue cost (modiRun cost bfs).1)) ∧
    (∀ (cost : List (List ℚ)) (n m : ℕ) (a : Alloc),
      modiLoop cost n m 0 a = (a, ExitKind.capExceeded)) ∧
    (∀ (cost : List (List ℚ)) (bfs : List (Cell × ℚ)),
      modiRun cost bfs = modiLoop cost cost.length (cost.getD 0 []).length 100
        (modiInit cost.length (cost.getD 0 []).length bfs)) ∧
    (∃ (cost : List (List ℚ)) (bfs : List (Cell × ℚ)),
      (modiRun cost bfs).2 = ExitKind.capExceeded) := by
  refine ⟨fun cost bfs => rfl, fun cost n m a => rfl, fun cost bfs => rfl,
    ⟨[[3, 0, 6], [2, 0, 4], [7, 0, 2]],
      [((2, 1), 0), ((0, 2), 2), ((0, 0), 3), ((1, 1), 1), ((2, 0), 1), ((1, 2), 1)], ?_⟩⟩
  with_unfolding_all decide

/-- C3 counterexample: degeneracy repair does not always reach
n + m - 1. On a 2-by-4 problem whose four-cell basis forms a cycle, the
walk finder reports a closed walk through every candidate cell (a
lollipop through the existing cycle), so the row-major scan rejects them
all and construction ends with 4 cells, not 5; and a basis already
larger than n + m - 1 (4 cells on 2-by-2) keeps its size. -/
theorem C3_counterexample :
    (modiInit 2 4 [((0, 0), 1), ((0, 1), 1), ((1, 0), 1), ((1, 1), 1)]).length = 4 ∧
    ¬ ((modiInit 2 4 [((0, 0), 1), ((0, 1), 1), ((1, 0), 1), ((1, 1), 1)]).length = 2 + 4 - 1) ∧
    (modiInit 2 2 [((0, 0), 1), ((0, 1), 1), ((1, 0), 1), ((1, 1), 1)]).length = 4 ∧
    ¬ ((modiInit 2 2 [((0, 0), 1), ((0, 1), 1), ((1, 0), 1), ((1, 1), 1)]).length = 2 + 2 - 1) := by
  with_unfolding_all decide

theorem map_aset_id (k : Cell) (v : ℚ) :
    ∀ (as : Alloc), ¬ hasKey as k →
      as.map (fun q => if q.1 = k then (k, v) else q) = as := by
  intro as
  induction as with
  | nil => intro _; rfl
  | cons p rest ih =>
    intro h
    have hpk : ¬ p.1 = k := by
      intro hc
      apply h
      rw [hasKey, List.find?_cons_of_pos]
      · rfl
      · simp [hc]
    have hrest : ¬ hasKey rest k := by
      intro hc
      apply h
      rw [hasKey] at hc ⊢
      rw [List.find?_cons_of_neg]
      · exact hc
      · simp [hpk]
    rw [List.map_cons, if_neg hpk, ih hrest]

theorem lookupD_aset_eq (k : Cell) (v d : ℚ) :
    ∀ (a : Alloc), lookupD (aset a k v) k d = v := by
  intro a
  induction a with
  | nil =>
    rw [show aset [] k v = [(k, v)] from rfl, lookupD_cons_eq (k, v) [] k d rfl]
  | cons p as ih =>
    by_cases hpk : p.1 = k
    · have hk : hasKey (p :: as) k := by
        rw [hasKey, List.find?_cons_of_pos]
        · rfl
        · simp [hpk]
      rw [aset, if_pos hk, List.map_cons, if_pos hpk,
        lookupD_cons_eq (k, v) _ k d rfl]
    · rw [aset_cons_ne p as k v hpk, lookupD_cons_ne p _ k d hpk]
      exact ih

theorem lookupD_aset_ne (k c : Cell) (v d : ℚ) (hne : c ≠ k) :
    ∀ (a : Alloc), lookupD (aset a k v) c d = lookupD a c d := by
  intro a
  induction a with
  | nil =>
    rw [show aset [] k v = [(k, v)] from rfl,
      lookupD_cons_ne (k, v) [] c d (by intro hc; exact hne (by rw [← hc]))]
  | cons p as ih =>
    by_cases hpk : p.1 = k
    · have hk : hasKey (p :: as) k := by
        rw [hasKey, List.find?_cons_of_pos]
        · rfl
        · simp [hpk]
      rw [aset, if_pos hk, List.map_cons, if_pos hpk,
        lookupD_cons_ne (k, v) _ c d (by intro hc; exact hne (by rw [← hc]))]
      by_cases hask : hasKey as k
      · have : as.map (fun q => if q.1 = k then (k, v) else q) = aset as k v := by
          rw [aset, if_pos hask]
        rw [this, ih, lookupD_cons_ne p as c d (by rw [hpk]; exact fun hc => hne hc.symm)]
      · rw [map_aset_id k v as hask,
          lookupD_cons_ne p as c d (by rw [hpk]; exact fun hc => hne hc.symm)]
    · rw [aset_cons_ne p as k v hpk]
      by_cases hpc : p.1 = c
      · rw [lookupD_cons_eq p _ c d hpc, lookupD_cons_eq p as c d hpc]
      · rw [lookupD_cons_ne p _ c d hpc, lookupD_cons_ne p as c d hpc]
        exact ih

theorem hasKey_aset_mono {a : Alloc} {c : Cell} (k : Cell) (v : ℚ)
    (h : hasKey a c) : hasKey (aset a k v) c := by
  rw [hasKey_iff_mem_keys] at h ⊢
  rw [keys_aset]
  by_cases hk : hasKey a k
  · rw [if_pos hk]
    exact h
  · rw [if_neg hk]
    exact List.mem_append.2 (Or.inl h)

theorem length_aset (a : Alloc) (k : Cell) (v : ℚ) :
    (aset a k v).length = if hasKey a k then a.length else a.length + 1 := by
  rw [aset]
  by_cases hk : hasKey a k
  · rw [if_pos hk, if_pos hk, List.length_map]
  · rw [if_neg hk, if_neg hk, List.length_append]
    rfl

theorem applyAux_length (t : ℚ) :
    ∀ (cs : List Cell) (a : Alloc) (k : ℕ), (∀ c ∈ cs, hasKey a c) →
      (applyAux t a cs k).length = a.length := by
  intro cs
  induction cs with
  | nil => intro a k _; rfl
  | cons c rest ih =>
    intro a k hall
    have hc : hasKey a c := hall c (List.mem_cons_self c rest)
    rw [applyAux]
    by_cases hk : k % 2 = 0
    · rw [if_pos hk, ih _ _ (fun d hd => hasKey_aset_mono c _ (hall d (List.mem_cons_of_mem c hd))),
        length_aset, if_pos hc]
    · rw [if_neg hk, ih _ _ (fun d hd => hasKey_aset_mono c _ (hall d (List.mem_cons_of_mem c hd))),
        length_aset, if_pos hc]

theorem applyAux_lookup_notmem (t : ℚ) :
    ∀ (cs : List Cell) (a : Alloc) (k : ℕ) (c : Cell), c ∉ cs →
      lookupD (applyAux t a cs k) c 0 = lookupD a c 0 := by
  intro cs
  induction cs with
  | nil => intro a k c _; rfl
  | cons x rest ih =>
    intro a k c hnm
    have hcx : c ≠ x := fun hc => hnm (hc ▸ List.mem_cons_self x rest)
    have hcr : c ∉ rest := fun hc => hnm (List.mem_cons_of_mem x hc)
    rw [applyAux]
    by_cases hk : k % 2 = 0
    · rw [if_pos hk, ih _ _ _ hcr, lookupD_aset_ne x c _ 0 hcx]
    · rw [if_neg hk, ih _ _ _ hcr, lookupD_aset_ne x c _ 0 hcx]

theorem applyAux_lookup (t : ℚ) :
    ∀ (cs : List Cell) (a : Alloc) (k : ℕ) (p : ℕ) (hp : p < cs.length),
      cs.Nodup →
      lookupD (applyAux t a cs k) (cs.get ⟨p, hp⟩) 0 =
        lookupD a (cs.get ⟨p, hp⟩) 0 + (if (k + p) % 2 = 0 then t else -t) := by
  intro cs
  induction cs with
  | nil => intro a k p hp _; simp at hp
  | cons x rest ih =>
    intro a k p hp hnd
    rw [List.nodup_cons] at hnd
    obtain ⟨hxn, hndr⟩ := hnd
    rcases p with _ | p2
    · have hget : (x :: rest).get ⟨0, hp⟩ = x := rfl
      rw [hget, applyAux]
      by_cases hk : k % 2 = 0
      · rw [if_pos hk, applyAux_lookup_notmem t rest _ _ x hxn,
          lookupD_aset_eq x _ 0 a, if_pos (by omega : (k + 0) % 2 = 0)]
      · rw [if_neg hk, applyAux_lookup_notmem t rest _ _ x hxn,
          lookupD_aset_eq x _ 0 a, if_neg (by omega : ¬(k + 0) % 2 = 0)]
        ring
    · have hget : (x :: rest).get ⟨p2 + 1, hp⟩ = rest.get ⟨p2, by simpa using hp⟩ := rfl
      have hmem : rest.get ⟨p2, by simpa using hp⟩ ∈ rest :=
        List.get_mem rest p2 (by simpa using hp)
      have hnex : rest.get ⟨p2, by simpa using hp⟩ ≠ x := by
        intro hc
        exact hxn (hc ▸ hmem)
      rw [hget, applyAux]
      by_cases hk : k % 2 = 0
      · rw [if_pos hk, ih _ (k + 1) p2 (by simpa using hp) hndr,
          lookupD_aset_ne x _ _ 0 hnex]
        have : (k + 1 + p2) % 2 = (k + (p2 + 1)) % 2 := by omega
        rw [this]
      · rw [if_neg hk, ih _ (k + 1) p2 (by simpa using hp) hndr,
          lookupD_aset_ne x _ _ 0 hnex]
        have : (k + 1 + p2) % 2 = (k + (p2 + 1)) % 2 := by omega
        rw [this]

theorem hasKey_applyAux_mono (t : ℚ) :
    ∀ (cs : List Cell) (a : Alloc) (k : ℕ) (c : Cell), hasKey a c →
      hasKey (applyAux t a cs k) c := by
  intro cs
  induction cs with
  | nil => intro a k c h; exact h
  | cons x rest ih =>
    intro a k c h
    rw [applyAux]
    by_cases hk : k % 2 = 0
    · rw [if_pos hk]
      exact ih _ _ _ (hasKey_aset_mono x _ h)
    · rw [if_neg hk]
      exact ih _ _ _ (hasKey_aset_mono x _ h)

theorem mem_minusCells {L : List Cell} {m : Cell} (h : m ∈ minusCells L) :
    ∃ idx, ∃ hidx : idx < L.length, idx % 2 = 1 ∧ L.get ⟨idx, hidx⟩ = m := by
  rw [minusCells] at h
  obtain ⟨pr, hprf, hpr2⟩ := List.mem_map.1 h
  obtain ⟨hmem, hodd⟩ := List.mem_filter.1 hprf
  have hget := List.mem_enum_iff_getElem?.1 hmem
  have hlt : pr.1 < L.length := by
    by_contra hc
    rw [List.getElem?_eq_none (by omega)] at hget
    cases hget
  refine ⟨pr.1, hlt, of_decide_eq_true hodd, ?_⟩
  have : L.get ⟨pr.1, hlt⟩ = pr.2 := by
    have h2 : L[pr.1] = pr.2 := by
      have := hget
      rw [List.getElem?_eq_getElem hlt] at this
      exact Option.some_inj.1 this
    exact h2
  rw [this, hpr2]

theorem theta_spec (a : Alloc) (L : List Cell) (hne : minusCells L ≠ []) :
    ∃ m ∈ minusCells L, lookupD a m 0 = theta a L := by
  have hmapne : (minusCells L).map (fun c => lookupD a c 0) ≠ [] := by
    intro hc
    rw [List.map_eq_nil_iff] at hc
    exact hne hc
  have hth : theta a L = listMin ((minusCells L).map (fun c => lookupD a c 0)) := by
    rcases hm : (minusCells L).map (fun c => lookupD a c 0) with _ | ⟨x, xs⟩
    · exact absurd hm hmapne
    · rw [theta.eq_def, hm, listMin.eq_def]
  have hmem := listMin_mem hmapne
  rw [← hth] at hmem
  obtain ⟨m, hm, hval⟩ := List.mem_map.1 hmem
  exact ⟨m, hm, hval⟩

theorem adel_length (c : Cell) :
    ∀ (a : Alloc), (keys a).Nodup → hasKey a c →
      (adel a c).length = a.length - 1 := by
  intro a
  induction a with
  | nil =>
    intro _ hk
    rw [hasKey, List.find?_nil] at hk
    cases hk
  | cons p as ih =>
    intro hnd hk
    rw [keys, List.map_cons, List.nodup_cons] at hnd
    obtain ⟨hpn, hndas⟩ := hnd
    by_cases hpc : p.1 = c
    · have hfix : as.filter (fun q => decide (q.1 ≠ c)) = as := by
        apply List.filter_eq_self.2
        intro q hq
        rw [decide_eq_true_eq]
        intro hqc
        rw [← hpc] at hqc
        exact hpn (hqc ▸ List.mem_map_of_mem (·.1) hq)
      rw [adel, List.filter_cons_of_neg (by simp [hpc]), hfix]
      rfl
    · have hkas : hasKey as c := by
        rw [hasKey] at hk ⊢
        rw [List.find?_cons_of_neg] at hk
        · exact hk
        · simp [hpc]
      have hlen : 1 ≤ as.length := by
        rcases as with _ | _
        · rw [hasKey, List.find?_nil] at hkas
          cases hkas
        · simp
      rw [adel, List.filter_cons_of_pos (by simp [hpc]), ← adel, List.length_cons,
        ih hndas hkas, List.length_cons]
      omega

theorem dropFirstZero_length :
    ∀ (cells : List Cell) (a : Alloc), (keys a).Nodup →
      (∀ c ∈ cells, hasKey a c) → (∃ c ∈ cells, lookupD a c 0 = 0) →
      (dropFirstZero a cells).length = a.length - 1 := by
  intro cells
  induction cells with
  | nil =>
    intro a _ _ hex
    obtain ⟨c, hc, -⟩ := hex
    cases hc
  | cons c0 rest ih =>
    intro a hnd hall hex
    rw [dropFirstZero]
    by_cases hz : lookupD a c0 0 = 0
    · rw [if_pos hz]
      exact adel_length c0 a hnd (hall c0 (List.mem_cons_self c0 rest))
    · rw [if_neg hz]
      refine ih a hnd (fun c hc => hall c (List.mem_cons_of_mem c0 hc)) ?_
      obtain ⟨c, hc, hcz⟩ := hex
      rcases List.mem_cons.1 hc with he | h2
      · rw [he] at hcz
        exact absurd hcz hz
      · exact ⟨c, h2, hcz⟩

/-- `_reallocate` preserves the basis size exactly: the entering cell is
appended and exactly one minus cell whose updated flow reached zero is
removed (even when several reach zero, only the first is dropped). -/
theorem reallocate_length (a : Alloc) (start : Cell) (rest : List Cell)
    (hnd : (keys a).Nodup) (hstart : ¬ hasKey a start)
    (hrest : ∀ c ∈ rest, hasKey a c) (hnodup : (start :: rest).Nodup)
    (hrne : rest ≠ []) :
    (reallocate a (start :: rest)).length = a.length := by
  rw [reallocate]
  have hone := applyLoop_eq_aux (theta a (start :: rest)) a (start :: rest)
  set t := theta a (start :: rest) with hts
  set L := (start :: rest : List Cell) with hLs
  have hminus_tail : ∀ m ∈ minusCells L, m ∈ rest := by
    intro m hm
    obtain ⟨idx, hidx, hodd, hget⟩ := mem_minusCells hm
    rcases idx with _ | idx2
    · simp at hodd
    · have : L.get ⟨idx2 + 1, hidx⟩ = rest.get ⟨idx2, by
        rw [hLs] at hidx
        simpa using hidx⟩ := rfl
      rw [this] at hget
      rw [← hget]
      exact List.get_mem rest idx2 _
  have hminus_ne : minusCells L ≠ [] := by
    rcases hr : rest with _ | ⟨r0, rs⟩
    · exact absurd hr hrne
    · apply List.ne_nil_of_mem (a := r0)
      have : (1 : ℕ) % 2 = 1 := rfl
      rw [minusCells]
      apply List.mem_map.2
      refine ⟨(1, r0), ?_, rfl⟩
      apply List.mem_filter.2
      refine ⟨?_, rfl⟩
      apply List.mem_enum_iff_getElem?.2
      rw [hLs, hr]
      simp
  -- length after the update pass
  have hlen1 : (applyLoop a L t).length = a.length + 1 := by
    rw [hone, hLs, show applyAux t a (start :: rest) 0 =
      applyAux t (aset a start (lookupD a start 0 + t)) rest 1 from rfl,
      applyAux_length t rest _ 1 (fun c hc => hasKey_aset_mono start _ (hrest c hc)),
      length_aset, if_neg hstart]
  have hnd1 : (keys (applyLoop a L t)).Nodup := by
    rw [hone]
    exact applyAux_keys_nodup t L a 0 hnd
  have hall1 : ∀ c ∈ minusCells L, hasKey (applyLoop a L t) c := by
    intro c hc
    rw [hone]
    exact hasKey_applyAux_mono t L a 0 c (hrest c (hminus_tail c hc))
  -- the minimising minus cell reaches exactly zero
  obtain ⟨m, hm, hmval⟩ := theta_spec a L hminus_ne
  obtain ⟨idx, hidx, hodd, hget⟩ := mem_minusCells hm
  have hzero : lookupD (applyLoop a L t) m 0 = 0 := by
    rw [hone, ← hget, applyAux_lookup t L a 0 idx hidx hnodup,
      if_neg (by omega : ¬(0 + idx) % 2 = 0), hget, hmval, hts]
    ring
  rw [dropFirstZero_length (minusCells L) (applyLoop a L t) hnd1 hall1
    ⟨m, hm, hzero⟩, hlen1]
  omega
theorem ensureScan_ge :
    ∀ (cells : List Cell) (req : ℕ) (a : Alloc),
      a.length ≤ (ensureScan cells req a).length := by
  intro cells
  induction cells with
  | nil => intro req a; exact le_refl _
  | cons c rest ih =>
    intro req a
    rw [ensureScan]
    by_cases h1 : hasKey a c
    · rw [if_pos h1]
      exact ih req a
    · rw [if_neg h1]
      by_cases h2 : (findLoop a c).isSome
      · rw [if_pos h2]
        exact ih req a
      · rw [if_neg h2]
        by_cases h3 : (a ++ [(c, 0)]).length = req
        · rw [if_pos h3, List.length_append, List.length_singleton]
          omega
        · rw [if_neg h3]
          refine le_trans ?_ (ih req (a ++ [(c, 0)]))
          rw [List.length_append, List.length_singleton]
          omega

theorem ensureScan_le :
    ∀ (cells : List Cell) (req : ℕ) (a : Alloc), a.length < req →
      (ensureScan cells req a).length ≤ req := by
  intro cells
  induction cells with
  | nil => intro req a h; exact le_of_lt h
  | cons c rest ih =>
    intro req a h
    rw [ensureScan]
    by_cases h1 : hasKey a c
    · rw [if_pos h1]
      exact ih req a h
    · rw [if_neg h1]
      by_cases h2 : (findLoop a c).isSome
      · rw [if_pos h2]
        exact ih req a h
      · rw [if_neg h2]
        by_cases h3 : (a ++ [(c, 0)]).length = req
        · rw [if_pos h3, h3]
        · rw [if_neg h3]
          apply ih req (a ++ [(c, 0)])
          have h4 : (a ++ [(c, 0)]).length = a.length + 1 := by
            rw [List.length_append, List.length_singleton]
          rw [h4] at h3 ⊢
          omega

theorem ensureScan_inserts_zero :
    ∀ (cells : List Cell) (req : ℕ) (a : Alloc),
      ∀ p ∈ ensureScan cells req a, p ∈ a ∨ p.2 = 0 := by
  intro cells
  induction cells with
  | nil => intro req a p hp; exact Or.inl hp
  | cons c rest ih =>
    intro req a p hp
    rw [ensureScan] at hp
    by_cases h1 : hasKey a c
    · rw [if_pos h1] at hp
      exact ih req a p hp
    · rw [if_neg h1] at hp
      by_cases h2 : (findLoop a c).isSome
      · rw [if_pos h2] at hp
        exact ih req a p hp
      · rw [if_neg h2] at hp
        by_cases h3 : (a ++ [(c, 0)]).length = req
        · rw [if_pos h3] at hp
          rcases List.mem_append.1 hp with hin | hnew
          · exact Or.inl hin
          · rw [List.mem_singleton] at hnew
            rw [hnew]
            exact Or.inr rfl
        · rw [if_neg h3] at hp
          rcases ih req (a ++ [(c, 0)]) p hp with hin | hz
          · rcases List.mem_append.1 hin with hin2 | hnew
            · exact Or.inl hin2
            · rw [List.mem_singleton] at hnew
              rw [hnew]
              exact Or.inr rfl
          · exact Or.inr hz

/-- C3 (amended): degeneracy repair returns bases already at n + m - 1
unchanged, only ever appends zero-valued cells, never shrinks a basis,
and never overshoots a target approached from below — but it does not
always reach n + m - 1 (see the counterexample: on a cyclic basis the
walk finder reports a loop through every candidate and the scan ends
short; oversized bases stay oversized). Every reallocation step
preserves the basis size exactly: the entering cell is appended and
exactly one minus cell whose updated flow reached zero is removed, even
when several reach zero simultaneously. -/
theorem C3_basis_size :
    (∀ (n m : ℕ) (a : Alloc), a.length = n + m - 1 → ensureNonDegenerate n m a = a) ∧
    (∀ (cells : List Cell) (req : ℕ) (a : Alloc),
      a.length ≤ (ensureScan cells req a).length) ∧
    (∀ (cells : List Cell) (req : ℕ) (a : Alloc), a.length < req →
      (ensureScan cells req a).length ≤ req) ∧
    (∀ (cells : List Cell) (req : ℕ) (a : Alloc),
      ∀ p ∈ ensureScan cells req a, p ∈ a ∨ p.2 = 0) ∧
    (∀ (a : Alloc) (start : Cell) (rest : List Cell), (keys a).Nodup →
      ¬ hasKey a start → (∀ c ∈ rest, hasKey a c) → (start :: rest).Nodup →
      rest ≠ [] → (reallocate a (start :: rest)).length = a.length) := by
  refine ⟨?_, ensureScan_ge, ensureScan_le, ensureScan_inserts_zero, reallocate_length⟩
  intro n m a h
  rw [ensureNonDegenerate, if_pos h]

theorem C3_basis_size_witness :
    ensureNonDegenerate 2 2 [((0, 0), (1 : ℚ)), ((0, 1), 2), ((1, 1), 3)] =
      [((0, 0), (1 : ℚ)), ((0, 1), 2), ((1, 1), 3)] ∧
    (reallocate [((0, 0), (4 : ℚ)), ((0, 1), 1), ((1, 1), 8)]
      ((1, 0) :: [(1, 1), (0, 1), (0, 0)])).length =
      ([((0, 0), (4 : ℚ)), ((0, 1), 1), ((1, 1), 8)] : Alloc).length :=
  ⟨C3_basis_size.1 2 2 [((0, 0), (1 : ℚ)), ((0, 1), 2), ((1, 1), 3)] (by decide),
    C3_basis_size.2.2.2.2 [((0, 0), (4 : ℚ)), ((0, 1), 1), ((1, 1), 8)] (1, 0)
      [(1, 1), (0, 1), (0, 0)] (by with_unfolding_all decide)
      (by with_unfolding_all decide) (by with_unfolding_all decide)
      (by decide) (by decide)⟩

end TP
